import Mathlib

/-!
Verification of the build planner / artifact cache of the `tools` repository
(`src/unnamed/part_000` = `Compiler`, `src/solidity-compiler/src/json_compiler.ts`
= `JSONCompiler`).  JavaScript objects with string keys are embedded as
insertion-ordered association lists (`JsObj`); `undefined` lookups become
`Option`; a `throw` becomes `Except.error`.  External collaborators
(`@0x/sol-resolver`, the solc wrapper back-ends, `semver`) and utilities that
are not part of the sources are passed in as an environment record or
modelled from the spec where noted.
-/

namespace SolCompiler

/-- Insertion-ordered association list: the embedding of a JavaScript object
with string keys (`Object.keys` returns keys in insertion order). -/
abbrev JsObj (α : Type) := List (String × α)

/-- `obj[k]` — JS property read, `none` when the key is absent. -/
def jsGet {α : Type} (m : JsObj α) (k : String) : Option α :=
  (m.find? (fun p => p.1 == k)).map (fun p => p.2)

/-- `obj[k] = v` — JS property write: updates in place when the key exists
(keeping its position), otherwise appends, preserving insertion order. -/
def jsSet {α : Type} (m : JsObj α) (k : String) (v : α) : JsObj α :=
  if m.any (fun p => p.1 == k) then
    m.map (fun p => if p.1 == k then (k, v) else p)
  else
    m ++ [(k, v)]

/-- `Object.keys(obj)`. -/
def jsKeys {α : Type} (m : JsObj α) : List String := m.map (fun p => p.1)

/-- Does `pre` start `s`?  (`String.startsWith`, computed on the character
lists so that proofs can evaluate it.) -/
def strStartsWith (s pre : String) : Bool := pre.data.isPrefixOf s.data

/-- Drop the first `n` characters of `s` (`String.drop`). -/
def strDrop (s : String) (n : Nat) : String := ⟨s.data.drop n⟩

/-- `path.basename(p, ext)` for POSIX paths: the part after the last `/`,
then with `ext` stripped when it is a suffix of the file name. -/
def jsBasename (p : String) (ext : String) : String :=
  let name : List Char := (p.data.reverse.takeWhile (fun c => c ≠ '/')).reverse
  if ext.data.isSuffixOf name then ⟨name.take (name.length - ext.data.length)⟩
  else ⟨name⟩

/-- `constants.SOLIDITY_FILE_EXTENSION`. -/
def SOLIDITY_FILE_EXTENSION : String := ".sol"

/-- Modelled from the spec: `constants.LATEST_ARTIFACT_VERSION`
(the "current schema version constant"); the file `utils/constants` is not
part of the sources.  Only its identity matters to the gate, not its value. -/
def LATEST_ARTIFACT_VERSION : String := "2.0.1"

/-- Modelled from the spec: `normalizeSolcVersion` from `utils/compiler`
(not part of the sources) — §4.D: "use it verbatim after normalization
(strip any leading `v`)". -/
def normalizeSolcVersion (v : String) : String :=
  if strStartsWith v "v" then strDrop v 1 else v

/-- A resolved source record from `@0x/sol-resolver`. -/
structure ContractSource where
  path : String
  absolutePath : String
  source : String
  deriving Repr, DecidableEq

/-- `compiler: {name, version, settings}` inside a persisted artifact.
Settings are opaque to the planner, embedded as a `String`. -/
structure CompilerInfo where
  name : String
  version : String
  settings : String
  deriving Repr, DecidableEq

/-- The fields of a previously persisted artifact that the driver reads. -/
structure ContractArtifact where
  schemaVersion : String
  contractName : String
  sourceTreeHashHex : String
  compiler : CompilerInfo
  deriving Repr, DecidableEq

/-- Planner bookkeeping for one requested contract (`interface ContractData`). -/
structure ContractData where
  currentArtifactIfExists : Option ContractArtifact
  sourceTreeHashHex : String
  contractName : String
  deriving Repr, DecidableEq

/-- A compilation unit: `ContractContentsByPath`, absolute path → source text. -/
abbrev CompilationUnit := JsObj String

/-- The standard-JSON request actually sent; only `settings` is read back. -/
structure StandardInput where
  settings : String
  deriving Repr, DecidableEq

/-- The compiler's standard-JSON response: `contracts[path][name]` (the
compiled record, opaque here) and `sources[path]` (per-file metadata). -/
structure StandardOutput where
  contracts : JsObj (JsObj String)
  sources : JsObj Nat
  deriving Repr, DecidableEq

/-- `{input, output}` yielded by one back-end wrapper invocation. -/
structure CompileResult where
  input : StandardInput
  output : StandardOutput
  deriving Repr, DecidableEq

/-- The error taxonomy: each constructor is one `throw` site of the driver,
plus `jsTypeError` for the runtime error raised by reading a property of
`undefined`. -/
inductive CompilerError where
  | nameResolution (name : String)
  | unsatisfiableVersion (range : String)
  | unsupportedVersion (version : String)
  | missingContract (contractName : String) (contractPath : String)
  | jsTypeError
  deriving Repr, DecidableEq

/-- The closed set of back-end wrapper families (`SolcWrapperV01` … `V08`). -/
inductive SolcFamily where
  | v01 | v02 | v03 | v04 | v05 | v06 | v07 | v08
  deriving Repr, DecidableEq

/-- The prefix dispatch of `_createSolcInstance`, tried in source order. -/
def familyOf (v : String) : Option SolcFamily :=
  if strStartsWith v "0.1." then some .v01
  else if strStartsWith v "0.2." then some .v02
  else if strStartsWith v "0.3." then some .v03
  else if strStartsWith v "0.4." then some .v04
  else if strStartsWith v "0.5." then some .v05
  else if strStartsWith v "0.6" then some .v06
  else if strStartsWith v "0.7" then some .v07
  else if strStartsWith v "0.8" then some .v08
  else none

/-- A wrapper instance: its (normalized) version, its family, and a creation
sequence number distinguishing distinct instances of the same version. -/
structure SolcWrapper where
  version : String
  family : SolcFamily
  instanceId : Nat
  deriving Repr, DecidableEq

/-- `_solcWrappersByVersion` plus a counter handing out instance ids. -/
structure WrapperRegistry where
  wrappers : JsObj SolcWrapper
  counter : Nat
  deriving Repr, DecidableEq

/-- The empty registry of a freshly constructed driver. -/
def WrapperRegistry.empty : WrapperRegistry := ⟨[], 0⟩

/-- `_createSolcInstance`: prefix-match the family, fail with
`UnsupportedVersionError` ("Missing Solc wrapper implementation") otherwise. -/
def createSolcInstance (ctr : Nat) (solcVersion : String) :
    Except CompilerError SolcWrapper :=
  match familyOf solcVersion with
  | some f => .ok ⟨solcVersion, f, ctr⟩
  | none => .error (.unsupportedVersion solcVersion)

/-- `_getSolcWrapperForVersion`: normalize, then lazily create-or-reuse the
wrapper stored under the normalized version. -/
def getSolcWrapperForVersion (reg : WrapperRegistry) (solcVersion : String) :
    Except CompilerError (SolcWrapper × WrapperRegistry) :=
  let normalizedVersion := normalizeSolcVersion solcVersion
  match jsGet reg.wrappers normalizedVersion with
  | some w => .ok (w, reg)
  | none =>
    match createSolcInstance reg.counter normalizedVersion with
    | .ok w => .ok (w, ⟨jsSet reg.wrappers normalizedVersion w, reg.counter + 1⟩)
    | .error e => .error e

/-- What one planning step observes: `spyResolver.resolve(name)` (the root)
plus the sources the spy recorded while `getSourceTreeHash` walked the
imports, plus the hex digest that walk produced. -/
structure ResolveOutcome where
  root : ContractSource
  recorded : List ContractSource
  treeHashHex : String
  deriving Repr, DecidableEq

structure CompilerEnv where
  /-- Resolver chain + `getSourceTreeHash` walk; `none` = resolution failure. -/
  resolve : String → Option ResolveOutcome
  /-- `getContractArtifactIfExistsAsync artifactsDir name`. -/
  getArtifact : String → Option ContractArtifact
  /-- `getSolcJSVersionListAsync(...).releases`: short version → full version. -/
  releases : JsObj String
  /-- `parseSolidityVersionRange` on a source text. -/
  parseRange : String → String
  /-- `semver`: does a short version satisfy a range expression? -/
  satisfies : String → String → Bool
  /-- `semver` version ordering (`a ≤ b`), used by `maxSatisfying`. -/
  verLe : String → String → Bool
  /-- `wrapper.areCompilerSettingsDifferent(settings)` for the wrapper of a
  given normalized version (wrapper construction is deterministic, so the
  answer is a function of the version and the artifact's settings). -/
  settingsDifferent : String → String → Bool
  /-- `wrapper.compileAsync(unit, remappings)` for the wrapper of a given
  normalized version — a pure function of its arguments (spec §4.G). -/
  compile : String → CompilationUnit → JsObj String → CompileResult
  /-- `getDependencyNameToPackagePath` over all resolved sources. -/
  remappingsOf : List ContractSource → JsObj String

/-- Options of one `_compileContractsAsync` call, after defaulting. -/
structure DriverOpts where
  shouldPersist : Bool
  shouldCompileIndependently : Bool
  deriving Repr, DecidableEq

/-- The constructor's pin computation: `SOLCJS_PATH` (when the variable is
set, its filename encodes the version — `getSolcJSVersionFromPath` is
modelled as the function argument) takes precedence over `opts.solcVersion`. -/
def solcVersionIfExists (getSolcJSVersionFromPath : String → String)
    (envSolcJSPath : Option String) (optsSolcVersion : Option String) :
    Option String :=
  match envSolcJSPath with
  | some p => some (getSolcJSVersionFromPath p)
  | none => optsSolcVersion

/-- One step of the running-maximum scan behind `maxSatisfying`. -/
def maxSatStep (verLe : String → String → Bool) (sat : String → Bool)
    (acc : Option String) (v : String) : Option String :=
  if sat v then
    match acc with
    | none => some v
    | some b => if verLe b v then some v else some b
  else acc

/-- `semver.maxSatisfying(versions, range)`: the greatest element of
`versions` (by `verLe`) satisfying `sat`, `none` when no element does. -/
def maxSatisfying (verLe : String → String → Bool) (sat : String → Bool)
    (versions : List String) : Option String :=
  versions.foldl (maxSatStep verLe sat) none

/-- The per-contract version choice of `_compileContractsAsync`: the pin when
set, else the maximum release satisfying the source's pragma range
(normalized full version), else `UnsatisfiableVersionError`.  The inner
`none` arm of the release lookup is unreachable (the chosen short version is
a key of `releases`). -/
def selectSolcVersion (env : CompilerEnv) (pin : Option String)
    (source : String) : Except CompilerError String :=
  match pin with
  | some v => .ok v
  | none =>
    let range := env.parseRange source
    match maxSatisfying env.verLe (fun v => env.satisfies v range)
        (jsKeys env.releases) with
    | some solidityVersion =>
      match jsGet env.releases solidityVersion with
      | some full => .ok (normalizeSolcVersion full)
      | none => .error (.unsatisfiableVersion range)
    | none => .error (.unsatisfiableVersion range)

/-- `_shouldCompile`: rebuild when there is no artifact, or the schema
version is stale, or the wrapper reports different settings, or the source
tree hash changed.  The wrapper lookup can itself fail
(`UnsupportedVersionError`) and touches the registry. -/
def shouldCompile (env : CompilerEnv) (reg : WrapperRegistry)
    (contractData : ContractData) :
    Except CompilerError (Bool × WrapperRegistry) :=
  match contractData.currentArtifactIfExists with
  | none => .ok (true, reg)
  | some currentArtifact =>
    match getSolcWrapperForVersion reg currentArtifact.compiler.version with
    | .error e => .error e
    | .ok (solc, reg') =>
      let isUserOnLatestVersion :=
        currentArtifact.schemaVersion == LATEST_ARTIFACT_VERSION
      let didCompilerSettingsChange :=
        env.settingsDifferent solc.version currentArtifact.compiler.settings
      let didSourceChange :=
        currentArtifact.sourceTreeHashHex != contractData.sourceTreeHashHex
      .ok (!isUserOnLatestVersion || didCompilerSettingsChange
            || didSourceChange, reg')

/-- Ghost record of one contract that survived the cache gate. -/
structure SurvivorInfo where
  name : String
  solcVersion : String
  recordedPaths : List String
  deriving Repr, DecidableEq

/-- Mutable state of the planning loop of `_compileContractsAsync`.
`survivors` is a ghost field (it records gate decisions for the theorems and
influences nothing). -/
structure PlanState where
  compilationUnitsByVersion : JsObj (List CompilationUnit)
  contractPathToData : JsObj ContractData
  resolvedContractSources : List ContractSource
  registry : WrapperRegistry
  survivors : List SurvivorInfo

/-- The initial planning state of a freshly constructed driver. -/
def PlanState.init : PlanState := ⟨[], [], [], .empty, []⟩

/-- `unit[source.absolutePath] = source.source` for every spied source. -/
def fillUnit (unit : CompilationUnit) (sources : List ContractSource) :
    CompilationUnit :=
  sources.foldl (fun u cs => jsSet u cs.absolutePath cs.source) unit

/-- One iteration of the planning loop: resolve, hash, gate, pick a version,
and place the recorded sources into a unit — a fresh unit per root in
independent mode, the single first unit per version otherwise. -/
def planStep (env : CompilerEnv) (pin : Option String) (independent : Bool)
    (st : PlanState) (contractName : String) :
    Except CompilerError PlanState :=
  match env.resolve contractName with
  | none => .error (.nameResolution contractName)
  | some r =>
    let contractData : ContractData := {
      contractName := jsBasename contractName SOLIDITY_FILE_EXTENSION
      currentArtifactIfExists := env.getArtifact contractName
      sourceTreeHashHex := "0x" ++ r.treeHashHex }
    match shouldCompile env st.registry contractData with
    | .error e => .error e
    | .ok (rebuild, reg') =>
      if !rebuild then .ok { st with registry := reg' }
      else
        match selectSolcVersion env pin r.root.source with
        | .error e => .error e
        | .ok solcVersion =>
          let units := (jsGet st.compilationUnitsByVersion solcVersion).getD []
          let units' :=
            if independent then units ++ [fillUnit [] r.recorded]
            else
              match units with
              | [] => [fillUnit [] r.recorded]
              | u :: rest => fillUnit u r.recorded :: rest
          .ok { st with
            contractPathToData :=
              jsSet st.contractPathToData r.root.absolutePath contractData
            compilationUnitsByVersion :=
              jsSet st.compilationUnitsByVersion solcVersion units'
            resolvedContractSources :=
              st.resolvedContractSources ++ r.recorded
            registry := reg'
            survivors := st.survivors ++
              [⟨contractName, solcVersion, r.recorded.map (·.absolutePath)⟩] }

/-- The whole planning loop over the requested contract names. -/
def planContracts (env : CompilerEnv) (pin : Option String)
    (independent : Bool) :
    PlanState → List String → Except CompilerError PlanState
  | st, [] => .ok st
  | st, n :: rest =>
    match planStep env pin independent st n with
    | .error e => .error e
    | .ok st' => planContracts env pin independent st' rest

/-- Result of compiling every unit of the plan.  `results` is parallel to
the plan (`compilationResults[i][j]` ↔ `versions[i]`, unit `j`);
`compileCalls` is a ghost log of every back-end invocation (wrapper version
and unit). -/
structure DispatchResult where
  results : List (List CompileResult)
  registry : WrapperRegistry
  compileCalls : List (String × CompilationUnit)

/-- The concurrent fan-out of `_compileContractsAsync`: for each version of
the plan, obtain its wrapper (this can fail with `UnsupportedVersionError`)
and compile every unit of that version.  Concurrency is I/O-only; results
are collected positionally, so a sequential embedding is faithful. -/
def dispatchUnits (env : CompilerEnv) (remappings : JsObj String) :
    WrapperRegistry → List (String × List CompilationUnit) →
    Except CompilerError DispatchResult
  | reg, [] => .ok ⟨[], reg, []⟩
  | reg, (solcVersion, units) :: rest =>
    match getSolcWrapperForVersion reg solcVersion with
    | .error e => .error e
    | .ok (compiler, reg') =>
      let rs := units.map (fun u => env.compile compiler.version u remappings)
      match dispatchUnits env remappings reg' rest with
      | .error e => .error e
      | .ok d =>
        .ok ⟨rs :: d.results, d.registry,
          units.map (fun u => (compiler.version, u)) ++ d.compileCalls⟩

/-- One artifact file as written by `_persistCompiledContractAsync`
(`chains` is a constant empty map and is omitted).  A JS `undefined`
compiled record is embedded as `compilerOutput = none`. -/
structure WrittenArtifact where
  schemaVersion : String
  contractName : String
  compilerOutput : Option String
  sources : JsObj Nat
  compiler : CompilerInfo
  deriving Repr, DecidableEq

/-- One `writeFileAsync` call: the file name (relative to the artifacts
directory) and the artifact serialized into it. -/
structure WriteEvent where
  fileName : String
  artifact : WrittenArtifact
  deriving Repr, DecidableEq

/-- `_persistCompiledContractAsync`: when the output has no `''` source key
(modern back-ends), write one artifact per source file of the output, named
`<contractFileName>-<basename>.json`, locating each record under
`contracts[path]` with a fallback to `contracts['']`; reading a property of
an absent family object is a runtime `TypeError`.  When `sources['']`
exists (family `0.1.` single-source shape), write the single anonymous
contract under the `contractFileName` itself. -/
def persistCompiledContract (contractFileName : String) (solcVersion : String)
    (compilerInput : StandardInput) (compilerOutput : StandardOutput) :
    Except CompilerError (List WriteEvent) :=
  match jsGet compilerOutput.sources "" with
  | none =>
    (jsKeys compilerOutput.sources).mapM (fun contractPath =>
      let contractName := jsBasename contractPath SOLIDITY_FILE_EXTENSION
      match (jsGet compilerOutput.contracts contractPath).elim
          (jsGet compilerOutput.contracts "") some with
      | none => .error CompilerError.jsTypeError
      | some fam =>
        .ok {
          fileName := contractFileName ++ "-" ++ contractName ++ ".json"
          artifact := {
            schemaVersion := LATEST_ARTIFACT_VERSION
            contractName := contractName
            compilerOutput := jsGet fam contractName
            sources := compilerOutput.sources
            compiler := ⟨"solc", solcVersion, compilerInput.settings⟩ } })
  | some _ =>
    let contractName := contractFileName
    match jsGet compilerOutput.contracts "" with
    | none => .error CompilerError.jsTypeError
    | some fam =>
      .ok [{
        fileName := contractFileName ++ "-" ++ contractName ++ ".json"
        artifact := {
          schemaVersion := LATEST_ARTIFACT_VERSION
          contractName := contractName
          compilerOutput := jsGet fam contractName
          sources := compilerOutput.sources
          compiler := ⟨"solc", solcVersion, compilerInput.settings⟩ } }]

/-- One iteration of the writer's innermost loop: a contract path inside one
compiled unit of one version. -/
structure PersistItem where
  solcVersion : String
  unit : CompilationUnit
  result : CompileResult
  contractPath : String
  deriving Repr, DecidableEq

/-- The writer's iteration space, flattened in its deterministic order:
versions in plan insertion order, units in index order, paths in unit
insertion order. -/
def persistItems (plan : List (String × List CompilationUnit))
    (results : List (List CompileResult)) : List PersistItem :=
  (plan.zip results).flatMap (fun pr =>
    (pr.1.2.zip pr.2).flatMap (fun ur =>
      (jsKeys ur.1).map (fun p => ⟨pr.1.1, ur.1, ur.2, p⟩)))

/-- Ghost record of one persist call the writer decided to make. -/
structure PersistCall where
  contractPath : String
  unitSize : Nat
  unit : CompilationUnit
  solcVersion : String
  deriving Repr, DecidableEq

/-- Writer state: the `PersistedArtifactCache`, the file writes performed so
far, and a ghost `trace` of the persist calls (used only by theorems). -/
structure WriterState where
  artifactCache : JsObj Nat
  events : List WriteEvent
  trace : List PersistCall

/-- The empty writer state at the start of the persist phase. -/
def WriterState.init : WriterState := ⟨[], [], []⟩

/-- One iteration of the writer: skip paths without planner data, locate the
compiled record (fallback to `contracts['']`; `MissingContractError` when
the family object lacks the contract name; `TypeError` when neither family
object exists), then persist unless an artifact from a unit of size
`≤ unitSize` was already written for this path. -/
def writerStep (contractPathToData : JsObj ContractData) (st : WriterState)
    (item : PersistItem) : Except CompilerError WriterState :=
  match jsGet contractPathToData item.contractPath with
  | none => .ok st
  | some contractData =>
    match (jsGet item.result.output.contracts item.contractPath).elim
        (jsGet item.result.output.contracts "") some with
    | none => .error CompilerError.jsTypeError
    | some fam =>
      match jsGet fam contractData.contractName with
      | none =>
        .error (.missingContract contractData.contractName item.contractPath)
      | some _ =>
        let unitSize := item.unit.length
        let skip :=
          match jsGet st.artifactCache item.contractPath with
          | some cached => decide (cached ≤ unitSize)
          | none => false
        if skip then .ok st
        else
          match persistCompiledContract contractData.contractName
              item.solcVersion item.result.input item.result.output with
          | .error e => .error e
          | .ok evs =>
            .ok ⟨jsSet st.artifactCache item.contractPath unitSize,
              st.events ++ evs,
              st.trace ++
                [⟨item.contractPath, unitSize, item.unit, item.solcVersion⟩]⟩

/-- The writer loop over all persist items. -/
def runWriter (contractPathToData : JsObj ContractData) :
    WriterState → List PersistItem → Except CompilerError WriterState
  | st, [] => .ok st
  | st, item :: rest =>
    match writerStep contractPathToData st item with
    | .error e => .error e
    | .ok st' => runWriter contractPathToData st' rest

/-- Everything a `_compileContractsAsync` run produces or records:
the plan, the planner map, ghost logs, the writer state (empty when not
persisting) and the returned per-version outputs. -/
structure RunResult where
  plan : JsObj (List CompilationUnit)
  contractPathToData : JsObj ContractData
  survivors : List SurvivorInfo
  compileCalls : List (String × CompilationUnit)
  writer : WriterState
  outputs : List (List StandardOutput)

/-- `_compileContractsAsync`: plan, dispatch, persist (when requested),
return the outputs grouped by version. -/
def compileContractsAsync (env : CompilerEnv) (pin : Option String)
    (opts : DriverOpts) (contractNames : List String) :
    Except CompilerError RunResult :=
  match planContracts env pin opts.shouldCompileIndependently
      PlanState.init contractNames with
  | .error e => .error e
  | .ok st =>
    let importRemappings := env.remappingsOf st.resolvedContractSources
    match dispatchUnits env importRemappings st.registry
        st.compilationUnitsByVersion with
    | .error e => .error e
    | .ok d =>
      let writerRun :=
        if opts.shouldPersist then
          runWriter st.contractPathToData WriterState.init
            (persistItems st.compilationUnitsByVersion d.results)
        else .ok WriterState.init
      match writerRun with
      | .error e => .error e
      | .ok w =>
        .ok {
          plan := st.compilationUnitsByVersion
          contractPathToData := st.contractPathToData
          survivors := st.survivors
          compileCalls := d.compileCalls
          writer := w
          outputs := d.results.map (fun rs => rs.map (fun r => r.output)) }

/-- `ranges.join(' ')` — space-joined strings (`Array.prototype.join`),
computed on character lists so that proofs can evaluate it. -/
def strJoinSpace : List String → String
  | [] => ""
  | [x] => x
  | x :: xs => x ++ " " ++ strJoinSpace xs

/-- One resolved standard-JSON bundle: the resolver's `path` for the bundle
and its per-file contents.  `JSON.parse`, the `sources ?? input` extraction
and `_.mapValues(…, data => data.content)` are external JS builtins and are
folded into the environment's resolution. -/
structure JsonBundle where
  path : String
  sources : JsObj String
  deriving Repr, DecidableEq

/-- External collaborators of the `JSONCompiler`. -/
structure JsonEnv where
  /-- `JSONNameResolver` via the spy, plus the parse of the bundle text. -/
  resolveBundle : String → Option JsonBundle
  /-- `getContractArtifactIfExistsAsync artifactsDir fileName`. -/
  getArtifact : String → Option ContractArtifact
  /-- `getSolcJSVersionListAsync(...).releases`. -/
  releases : JsObj String
  /-- `parseSolidityVersionRange` on one file's content. -/
  parseRange : String → String
  /-- `semver`: does a short version satisfy a range expression? -/
  satisfies : String → String → Bool
  /-- `semver` version ordering, used by `maxSatisfying`. -/
  verLe : String → String → Bool
  /-- `wrapper.compileAsync(contents, remappings)` per normalized version. -/
  compile : String → JsObj String → JsObj String → CompileResult

/-- `JSONCompiler._persistCompiledContractAsync`: one artifact per key of
`output.contracts`, named `<contractFileName>-<basename>.json`; no `''`
fallback and no `sources` field in the artifact. -/
def jsonPersistCompiledContract (contractFileName : String)
    (solcVersion : String) (compilerInput : StandardInput)
    (compilerOutput : StandardOutput) : List WriteEvent :=
  (jsKeys compilerOutput.contracts).map (fun contractPath =>
    let contractName := jsBasename contractPath SOLIDITY_FILE_EXTENSION
    { fileName := contractFileName ++ "-" ++ contractName ++ ".json"
      artifact := {
        schemaVersion := LATEST_ARTIFACT_VERSION
        contractName := contractName
        compilerOutput := (jsGet compilerOutput.contracts contractPath).bind
          (fun fam => jsGet fam contractName)
        sources := []
        compiler := ⟨"solc", solcVersion, compilerInput.settings⟩ } })

/-- Mutable state of the `JSONCompiler._compileContractsAsync` loop.
`compileCalls` is a ghost log of back-end invocations. -/
structure JsonState where
  contractPathToData : JsObj ContractData
  registry : WrapperRegistry
  compileCalls : List (String × JsObj String)
  events : List WriteEvent

/-- The initial state of a freshly constructed JSON driver. -/
def JsonState.init : JsonState := ⟨[], .empty, [], []⟩

/-- The JSON driver's per-bundle version choice: the pin, or the maximum
release satisfying the space-joined ranges of every file of the bundle
(ranges across a bundle are intersected by joining the range expressions
with a space). -/
def jsonSelectSolcVersion (env : JsonEnv) (pin : Option String)
    (bundle : JsonBundle) : Except CompilerError String :=
  match pin with
  | some v => .ok v
  | none =>
    let versionRange := strJoinSpace
      (bundle.sources.map (fun p => env.parseRange p.2))
    match maxSatisfying env.verLe (fun v => env.satisfies v versionRange)
        (jsKeys env.releases) with
    | some solidityVersion =>
      match jsGet env.releases solidityVersion with
      | some full => .ok (normalizeSolcVersion full)
      | none => .error (.unsatisfiableVersion versionRange)
    | none => .error (.unsatisfiableVersion versionRange)

/-- One iteration of the JSON driver: resolve a bundle, record its data with
the constant source-tree hash `"0x"`, pick a version, compile
unconditionally, and persist when requested. -/
def jsonCompileStep (env : JsonEnv) (pin : Option String)
    (shouldPersist : Bool) (st : JsonState) (contractFileName : String) :
    Except CompilerError JsonState :=
  match env.resolveBundle contractFileName with
  | none => .error (.nameResolution contractFileName)
  | some bundle =>
    let contractData : ContractData := {
      contractName := jsBasename contractFileName SOLIDITY_FILE_EXTENSION
      currentArtifactIfExists := env.getArtifact contractFileName
      sourceTreeHashHex := "0x" }
    let pathToData' := jsSet st.contractPathToData bundle.path contractData
    match jsonSelectSolcVersion env pin bundle with
    | .error e => .error e
    | .ok solcVersion =>
      match getSolcWrapperForVersion st.registry solcVersion with
      | .error e => .error e
      | .ok (compiler, reg') =>
        let result := env.compile compiler.version bundle.sources []
        let events' :=
          if shouldPersist then
            st.events ++ jsonPersistCompiledContract contractFileName
              solcVersion result.input result.output
          else st.events
        .ok ⟨pathToData', reg',
          st.compileCalls ++ [(compiler.version, bundle.sources)], events'⟩

/-- The loop of `JSONCompiler._compileContractsAsync` over the requested
bundle names. -/
def jsonCompileLoop (env : JsonEnv) (pin : Option String)
    (shouldPersist : Bool) :
    JsonState → List String → Except CompilerError JsonState
  | st, [] => .ok st
  | st, n :: rest =>
    match jsonCompileStep env pin shouldPersist st n with
    | .error e => .error e
    | .ok st' => jsonCompileLoop env pin shouldPersist st' rest

/-- `JSONCompiler._compileContractsAsync`: run the loop, then `return []` —
the returned list of per-version outputs is unconditionally empty. -/
def jsonCompileContractsAsync (env : JsonEnv) (pin : Option String)
    (shouldPersist : Bool) (contractFileNames : List String) :
    Except CompilerError (JsonState × List (List StandardOutput)) :=
  match jsonCompileLoop env pin shouldPersist JsonState.init
      contractFileNames with
  | .error e => .error e
  | .ok st => .ok (st, [])

/-- `JSONCompiler.getCompilerOutputsAsync`: compile without persisting and
map each per-version output list to its first element (`o[0]`, an `Option`
since the list may be empty). -/
def jsonGetCompilerOutputsAsync (env : JsonEnv) (pin : Option String)
    (contractFileNames : List String) :
    Except CompilerError (List (Option StandardOutput)) :=
  match jsonCompileContractsAsync env pin false contractFileNames with
  | .error e => .error e
  | .ok (_, promisedOutputs) => .ok (promisedOutputs.map (fun o => o.head?))

/-- The registry invariant: every stored wrapper sits under its own
(normalized) version key. -/
def RegistryWF (reg : WrapperRegistry) : Prop :=
  ∀ k w, jsGet reg.wrappers k = some w → w.version = k

/-- A minimal environment whose wrapper always reports different settings. -/
def c3Env : CompilerEnv := {
  resolve := fun _ => none
  getArtifact := fun _ => none
  releases := []
  parseRange := fun _ => ""
  satisfies := fun _ _ => false
  verLe := fun _ _ => true
  settingsDifferent := fun _ _ => true
  compile := fun _ _ _ => ⟨⟨""⟩, ⟨[], []⟩⟩
  remappingsOf := fun _ => [] }

/-- A contract with an up-to-date artifact except for its settings. -/
def c3Data : ContractData :=
  ⟨some ⟨LATEST_ARTIFACT_VERSION, "A", "0xabc", ⟨"solc", "0.5.17", "s"⟩⟩,
    "0xabc", "A"⟩

/-- A minimal JSON-driver environment with a single bundle `X`. -/
def c9Env : JsonEnv := {
  resolveBundle := fun n =>
    if n = "X" then some ⟨"X.json", [("X.sol", "src")]⟩ else none
  getArtifact := fun _ =>
    some ⟨LATEST_ARTIFACT_VERSION, "X", "0x", ⟨"solc", "0.6.12", "s"⟩⟩
  releases := [("0.6.12", "v0.6.12+commit.X")]
  parseRange := fun _ => "^0.6.0"
  satisfies := fun v r => v == "0.6.12" && r == "^0.6.0"
  verLe := fun a b => a.data.length ≤ b.data.length
  compile := fun v u _ =>
    ⟨⟨"settings"⟩, ⟨u.map (fun q =>
      (q.1, [(jsBasename q.1 SOLIDITY_FILE_EXTENSION, "code-" ++ v)])),
      u.map (fun q => (q.1, 0))⟩⟩ }

/-- The state of the concrete one-bundle run used as the C10 witness. -/
def c10State : JsonState :=
  ⟨[("X.json", ⟨some ⟨LATEST_ARTIFACT_VERSION, "X", "0x",
      ⟨"solc", "0.6.12", "s"⟩⟩, "0x", "X"⟩)],
   ⟨[("0.6.12+commit.X", ⟨"0.6.12+commit.X", .v06, 0⟩)], 1⟩,
   [("0.6.12+commit.X", [("X.sol", "src")])],
   [⟨"X-X.json", ⟨LATEST_ARTIFACT_VERSION, "X", some "code-0.6.12+commit.X",
      [], ⟨"solc", "0.6.12+commit.X", "settings"⟩⟩⟩]⟩

/-- Modelled from the spec: an idealized standard-JSON back-end (§4.G,
§6.4, §3 "Artifact") — a pure function of its unit whose response lists
every input file of the unit under `sources` and one compiled record per
file under `contracts[path][basename]`.  The concrete wrapper classes are
not part of the sources. -/
def stdCompile (version : String) (unit : CompilationUnit)
    (_remappings : JsObj String) : CompileResult :=
  { input := ⟨"settings"⟩
    output := {
      contracts := unit.map (fun p =>
        (p.1, [(jsBasename p.1 SOLIDITY_FILE_EXTENSION,
          "code(" ++ version ++ "," ++ p.1 ++ ")")]))
      sources := unit.enum.map (fun p => (p.2.1, p.1)) } }

def srcA : ContractSource := ⟨"A.sol", "/c/A.sol", "srcA"⟩

def srcL : ContractSource := ⟨"L.sol", "/c/L.sol", "srcL"⟩

def srcB : ContractSource := ⟨"B.sol", "/c/B.sol", "srcB"⟩

/-- The S4 project: roots `A` and `B`, both importing `L`; one release
`0.6.12`; no existing artifacts. -/
def c1Env : CompilerEnv := {
  resolve := fun n =>
    if n = "A" then some ⟨srcA, [srcA, srcL], "aa"⟩
    else if n = "B" then some ⟨srcB, [srcB, srcL], "bb"⟩
    else none
  getArtifact := fun _ => none
  releases := [("0.6.12", "v0.6.12+commit.X")]
  parseRange := fun _ => "^0.6.0"
  satisfies := fun v r => v == "0.6.12" && r == "^0.6.0"
  verLe := fun a b => a.data.length ≤ b.data.length
  settingsDifferent := fun _ _ => false
  compile := stdCompile
  remappingsOf := fun _ => [] }

/-- The artifact file names written by the batched persisting S4 run. -/
def c1WrittenFiles : Except CompilerError (List String) :=
  (compileContractsAsync c1Env none ⟨true, false⟩ ["A", "B"]).map
    (fun r => r.writer.events.map (fun e => e.fileName))

/-- A project whose only root has an unsatisfiable pragma, so only a pin
can choose a version. -/
def c4Env : CompilerEnv := {
  resolve := fun n =>
    if n = "A" then some ⟨srcA, [srcA], "aa"⟩ else none
  getArtifact := fun _ => none
  releases := []
  parseRange := fun _ => "^9.9.9"
  satisfies := fun _ _ => false
  verLe := fun a b => a.data.length ≤ b.data.length
  settingsDifferent := fun _ _ => false
  compile := stdCompile
  remappingsOf := fun _ => [] }

/-- The result of the pinned run over `c4Env`. -/
def c4Result : RunResult := {
  plan := [("v0.6.12", [[("/c/A.sol", "srcA")]])]
  contractPathToData := [("/c/A.sol", ⟨none, "0xaa", "A"⟩)]
  survivors := [⟨"A", "v0.6.12", ["/c/A.sol"]⟩]
  compileCalls := [("0.6.12", [("/c/A.sol", "srcA")])]
  writer := ⟨[], [], []⟩
  outputs := [[⟨[("/c/A.sol", [("A", "code(0.6.12,/c/A.sol)")])],
    [("/c/A.sol", 0)]⟩]] }

/-- The S5 project: one root `A` with an unsatisfiable pragma `^9.9.9`, one
indexed release, no pin, no existing artifacts. -/
def c5Env : CompilerEnv := {
  resolve := fun n =>
    if n = "A" then some ⟨srcA, [srcA], "aa"⟩ else none
  getArtifact := fun _ => none
  releases := [("0.6.12", "v0.6.12+commit.X")]
  parseRange := fun _ => "^9.9.9"
  satisfies := fun _ _ => false
  verLe := fun a b => a.data.length ≤ b.data.length
  settingsDifferent := fun _ _ => false
  compile := stdCompile
  remappingsOf := fun _ => [] }

/-- A release index with two satisfying versions, for the C5 witness. -/
def c5WitEnv : CompilerEnv := {
  resolve := fun _ => none
  getArtifact := fun _ => none
  releases := [("0.6.11", "v0.6.11+commit.A"), ("0.6.12", "v0.6.12+commit.B")]
  parseRange := fun _ => "^0.6.0"
  satisfies := fun v r => (r == "^0.6.0") && strStartsWith v "0.6"
  verLe := fun a b => a.data.length ≤ b.data.length
  settingsDifferent := fun _ _ => false
  compile := stdCompile
  remappingsOf := fun _ => [] }

/-- The single batched unit of the `c1Env` run. -/
def c6bUnit : CompilationUnit :=
  [("/c/A.sol", "srcA"), ("/c/L.sol", "srcL"), ("/c/B.sol", "srcB")]

/-- Result of the batched non-persisting `c1Env` run. -/
def c6bRes : RunResult := {
  plan := [("0.6.12+commit.X", [c6bUnit])]
  contractPathToData := [("/c/A.sol", ⟨none, "0xaa", "A"⟩),
    ("/c/B.sol", ⟨none, "0xbb", "B"⟩)]
  survivors := [⟨"A", "0.6.12+commit.X", ["/c/A.sol", "/c/L.sol"]⟩,
    ⟨"B", "0.6.12+commit.X", ["/c/B.sol", "/c/L.sol"]⟩]
  compileCalls := [("0.6.12+commit.X", c6bUnit)]
  writer := ⟨[], [], []⟩
  outputs := [[⟨[("/c/A.sol", [("A", "code(0.6.12+commit.X,/c/A.sol)")]),
    ("/c/L.sol", [("L", "code(0.6.12+commit.X,/c/L.sol)")]),
    ("/c/B.sol", [("B", "code(0.6.12+commit.X,/c/B.sol)")])],
    [("/c/A.sol", 0), ("/c/L.sol", 1), ("/c/B.sol", 2)]⟩]] }

/-- The two independent units of the `c1Env` run. -/
def c6iUnitA : CompilationUnit := [("/c/A.sol", "srcA"), ("/c/L.sol", "srcL")]

def c6iUnitB : CompilationUnit := [("/c/B.sol", "srcB"), ("/c/L.sol", "srcL")]

/-- Result of the independent non-persisting `c1Env` run. -/
def c6iRes : RunResult := {
  plan := [("0.6.12+commit.X", [c6iUnitA, c6iUnitB])]
  contractPathToData := [("/c/A.sol", ⟨none, "0xaa", "A"⟩),
    ("/c/B.sol", ⟨none, "0xbb", "B"⟩)]
  survivors := [⟨"A", "0.6.12+commit.X", ["/c/A.sol", "/c/L.sol"]⟩,
    ⟨"B", "0.6.12+commit.X", ["/c/B.sol", "/c/L.sol"]⟩]
  compileCalls := [("0.6.12+commit.X", c6iUnitA),
    ("0.6.12+commit.X", c6iUnitB)]
  writer := ⟨[], [], []⟩
  outputs := [[⟨[("/c/A.sol", [("A", "code(0.6.12+commit.X,/c/A.sol)")]),
      ("/c/L.sol", [("L", "code(0.6.12+commit.X,/c/L.sol)")])],
      [("/c/A.sol", 0), ("/c/L.sol", 1)]⟩,
    ⟨[("/c/B.sol", [("B", "code(0.6.12+commit.X,/c/B.sol)")]),
      ("/c/L.sol", [("L", "code(0.6.12+commit.X,/c/L.sol)")])],
      [("/c/B.sol", 0), ("/c/L.sol", 1)]⟩]] }

/-- Pure simulation of the writer's per-path gate: given the cached size
(if any), which persist calls happen for a stream of occurrences of one
path, and what the cache holds at the end.  The gate keeps an occurrence
exactly when nothing is cached or the new unit is strictly smaller. -/
def writerSim (cache : Option Nat) :
    List PersistItem → List PersistCall × Option Nat
  | [] => ([], cache)
  | it :: rest =>
    let sz := it.unit.length
    let keep : Bool :=
      match cache with
      | some c => decide (sz < c)
      | none => true
    if keep then
      let r := writerSim (some sz) rest
      (⟨it.contractPath, sz, it.unit, it.solcVersion⟩ :: r.1, r.2)
    else
      writerSim cache rest

/-- The first occurrence of minimal unit size in iteration order (ties keep
the earlier one), as a persist call. -/
def firstSmallestCall :
    Option PersistCall → List PersistItem → Option PersistCall
  | b, [] => b
  | b, it :: rest =>
    match b with
    | none => firstSmallestCall
        (some ⟨it.contractPath, it.unit.length, it.unit, it.solcVersion⟩)
        rest
    | some b0 =>
      if b0.unitSize ≤ it.unit.length then firstSmallestCall (some b0) rest
      else firstSmallestCall
        (some ⟨it.contractPath, it.unit.length, it.unit, it.solcVersion⟩)
        rest

/-- The C2 witness scenario: `B` has planner data and appears first in a
two-file unit (as a dependency of root `A`), then in its own one-file
unit. -/
def c2PathToData : JsObj ContractData := [("/c/B.sol", ⟨none, "0x", "B"⟩)]

def c2Unit2 : CompilationUnit := [("/c/A.sol", "sA"), ("/c/B.sol", "sB")]

def c2Unit1 : CompilationUnit := [("/c/B.sol", "sB")]

def c2Items : List PersistItem :=
  [⟨"0.6.12", c2Unit2, stdCompile "0.6.12" c2Unit2 [], "/c/A.sol"⟩,
   ⟨"0.6.12", c2Unit2, stdCompile "0.6.12" c2Unit2 [], "/c/B.sol"⟩,
   ⟨"0.6.12", c2Unit1, stdCompile "0.6.12" c2Unit1 [], "/c/B.sol"⟩]

/-- The final writer state of the C2 witness run: `B` was persisted from
the two-file unit, then overwritten from the strictly smaller one-file
unit. -/
def c2Final : WriterState :=
  ⟨[("/c/B.sol", 1)],
   [⟨"B-A.json", ⟨LATEST_ARTIFACT_VERSION, "A",
      some "code(0.6.12,/c/A.sol)", [("/c/A.sol", 0), ("/c/B.sol", 1)],
      ⟨"solc", "0.6.12", "settings"⟩⟩⟩,
    ⟨"B-B.json", ⟨LATEST_ARTIFACT_VERSION, "B",
      some "code(0.6.12,/c/B.sol)", [("/c/A.sol", 0), ("/c/B.sol", 1)],
      ⟨"solc", "0.6.12", "settings"⟩⟩⟩,
    ⟨"B-B.json", ⟨LATEST_ARTIFACT_VERSION, "B",
      some "code(0.6.12,/c/B.sol)", [("/c/B.sol", 0)],
      ⟨"solc", "0.6.12", "settings"⟩⟩⟩],
   [⟨"/c/B.sol", 2, c2Unit2, "0.6.12"⟩,
    ⟨"/c/B.sol", 1, c2Unit1, "0.6.12"⟩]⟩

/-! ## Basic lemmas about the JS-object embedding -/

theorem jsGet_nil {α : Type} (k : String) : jsGet ([] : JsObj α) k = none := rfl

theorem jsGet_cons {α : Type} (hd : String × α) (tl : JsObj α) (k : String) :
    jsGet (hd :: tl) k = if hd.1 = k then some hd.2 else jsGet tl k := by
  by_cases h : hd.1 = k
  · have hb : (hd.1 == k) = true := by simpa using h
    simp [jsGet, List.find?, hb, h]
  · have hb : (hd.1 == k) = false := by simpa using h
    simp [jsGet, List.find?, hb, h]

theorem jsGet_append {α : Type} (m₁ m₂ : JsObj α) (k : String) :
    jsGet (m₁ ++ m₂) k = (jsGet m₁ k).or (jsGet m₂ k) := by
  simp only [jsGet, List.find?_append]
  cases List.find? (fun p => p.1 == k) m₁ <;> simp

/-- Writing key `k` makes a later read of `k` return the written value. -/
theorem jsGet_jsSet_self {α : Type} (m : JsObj α) (k : String) (v : α) :
    jsGet (jsSet m k v) k = some v := by
  unfold jsSet
  by_cases h : m.any (fun p => p.1 == k)
  · rw [if_pos h]
    induction m with
    | nil => simp at h
    | cons hd tl ih =>
      simp only [List.any_cons, Bool.or_eq_true, beq_iff_eq] at h
      by_cases hk : hd.1 = k
      · have hb : (hd.1 == k) = true := by simpa using hk
        simp only [List.map_cons, hb, if_true]
        rw [jsGet_cons]
        simp
      · have hb : (hd.1 == k) = false := by simpa using hk
        have htl : tl.any (fun p => p.1 == k) = true := by
          rcases h with h | h
          · exact absurd h hk
          · exact h
        simp only [List.map_cons, hb, Bool.false_eq_true, if_false]
        rw [jsGet_cons, if_neg hk]
        exact ih htl
  · rw [if_neg h]
    rw [jsGet_append, jsGet_cons, if_pos rfl]
    cases hm : jsGet m k with
    | none => rfl
    | some w =>
      exfalso
      apply h
      unfold jsGet at hm
      obtain ⟨q, hfind, hq2⟩ := Option.map_eq_some'.mp hm
      rw [List.any_eq_true]
      refine ⟨q, List.mem_of_find?_eq_some hfind, ?_⟩
      have hpq := List.find?_some hfind
      simpa using hpq

/-- Writing key `k` leaves reads of other keys unchanged. -/
theorem jsGet_jsSet_ne {α : Type} (m : JsObj α) (k k' : String) (v : α)
    (hne : k' ≠ k) : jsGet (jsSet m k v) k' = jsGet m k' := by
  unfold jsSet
  by_cases h : m.any (fun p => p.1 == k)
  · rw [if_pos h]
    clear h
    induction m with
    | nil => rfl
    | cons hd tl ih =>
      simp only [List.map_cons]
      rw [jsGet_cons, jsGet_cons]
      by_cases hk : hd.1 = k
      · have hb : (hd.1 == k) = true := by simpa using hk
        simp only [hb, if_true]
        rw [if_neg (show ¬((k, v).1 = k') from fun hh => hne hh.symm)]
        rw [if_neg (show ¬(hd.1 = k') from fun hh => hne ((hk ▸ hh).symm))]
        exact ih
      · have hb : (hd.1 == k) = false := by simpa using hk
        simp only [hb, Bool.false_eq_true, if_false]
        by_cases hk' : hd.1 = k'
        · simp [hk']
        · rw [if_neg hk', if_neg hk']
          exact ih
  · rw [if_neg h]
    rw [jsGet_append, jsGet_cons]
    rw [if_neg (show ¬((k, v).1 = k') from fun hh => hne hh.symm)]
    simp only [jsGet_nil]
    cases jsGet m k' <;> rfl

/-- Every entry of `jsSet m k v` is the written pair or an entry of `m`. -/
theorem mem_jsSet {α : Type} {m : JsObj α} {k : String} {v : α}
    {p : String × α} (hp : p ∈ jsSet m k v) : p = (k, v) ∨ p ∈ m := by
  unfold jsSet at hp
  by_cases h : m.any (fun q => q.1 == k)
  · rw [if_pos h] at hp
    rw [List.mem_map] at hp
    obtain ⟨q, hq, hfq⟩ := hp
    by_cases hqk : q.1 = k
    · left
      rw [← hfq]
      simp [hqk]
    · right
      rw [← hfq]
      have hb : (q.1 == k) = false := by simpa using hqk
      simpa [hb] using hq
  · rw [if_neg h] at hp
    rw [List.mem_append] at hp
    rcases hp with hp | hp
    · exact Or.inr hp
    · left
      simpa using hp

theorem registryWF_empty : RegistryWF WrapperRegistry.empty := by
  intro k w h
  simp [WrapperRegistry.empty, jsGet] at h

/-- A wrapper handed out by the registry carries the normalized version, and
the registry invariant is preserved. -/
theorem getSolcWrapper_version (reg reg' : WrapperRegistry) (v : String)
    (w : SolcWrapper) (hwf : RegistryWF reg)
    (h : getSolcWrapperForVersion reg v = .ok (w, reg')) :
    w.version = normalizeSolcVersion v ∧ RegistryWF reg' := by
  cases hc : jsGet reg.wrappers (normalizeSolcVersion v) with
  | some w0 =>
    simp only [getSolcWrapperForVersion, hc, Except.ok.injEq,
      Prod.mk.injEq] at h
    obtain ⟨hw, hr⟩ := h
    subst hw hr
    exact ⟨hwf _ _ hc, hwf⟩
  | none =>
    cases hf : familyOf (normalizeSolcVersion v) with
    | none =>
      simp only [getSolcWrapperForVersion, createSolcInstance, hc, hf] at h
      exact Except.noConfusion h
    | some f =>
      simp only [getSolcWrapperForVersion, createSolcInstance, hc, hf,
        Except.ok.injEq, Prod.mk.injEq] at h
      obtain ⟨hw, hr⟩ := h
      subst hw
      refine ⟨rfl, ?_⟩
      intro k w' hk
      rw [← hr] at hk
      simp only at hk
      by_cases hkv : k = normalizeSolcVersion v
      · subst hkv
        rw [jsGet_jsSet_self] at hk
        cases hk
        rfl
      · rw [jsGet_jsSet_ne _ _ _ _ hkv] at hk
        exact hwf _ _ hk

/-- C8: the back-end wrapper is selected by prefix match on the normalized
version against the families `0.1.` / `0.2.` / `0.3.` / `0.4.` / `0.5.` /
`0.6` / `0.7` / `0.8` (representatives of each family and of the unknown
case are checked); a version matching no family fails with
`UnsupportedVersionError`; the registry is lazy and keyed by the normalized
version, so after a successful request, any request whose version normalizes
to the same string returns the identical wrapper instance and leaves the
registry unchanged. -/
theorem wrapper_selection_and_registry :
    (∀ (reg : WrapperRegistry) (v : String),
      jsGet reg.wrappers (normalizeSolcVersion v) = none →
      familyOf (normalizeSolcVersion v) = none →
      getSolcWrapperForVersion reg v =
        .error (.unsupportedVersion (normalizeSolcVersion v)))
  ∧ (∀ (reg : WrapperRegistry) (v : String) (f : SolcFamily),
      jsGet reg.wrappers (normalizeSolcVersion v) = none →
      familyOf (normalizeSolcVersion v) = some f →
      getSolcWrapperForVersion reg v =
        .ok (⟨normalizeSolcVersion v, f, reg.counter⟩,
          ⟨jsSet reg.wrappers (normalizeSolcVersion v)
            ⟨normalizeSolcVersion v, f, reg.counter⟩, reg.counter + 1⟩))
  ∧ (∀ (reg reg' : WrapperRegistry) (v₁ v₂ : String) (w : SolcWrapper),
      normalizeSolcVersion v₁ = normalizeSolcVersion v₂ →
      getSolcWrapperForVersion reg v₁ = .ok (w, reg') →
      getSolcWrapperForVersion reg' v₂ = .ok (w, reg'))
  ∧ (familyOf "0.1.7" = some .v01 ∧ familyOf "0.2.2" = some .v02 ∧
     familyOf "0.3.6" = some .v03 ∧ familyOf "0.4.26" = some .v04 ∧
     familyOf "0.5.17" = some .v05 ∧ familyOf "0.6.12" = some .v06 ∧
     familyOf "0.7.6" = some .v07 ∧ familyOf "0.8.19" = some .v08 ∧
     familyOf "0.9.0" = none ∧ familyOf "1.0.0" = none) := by
  refine ⟨?_, ?_, ?_, ?_⟩
  · intro reg v hget hfam
    simp only [getSolcWrapperForVersion, createSolcInstance, hget, hfam]
  · intro reg v f hget hfam
    simp only [getSolcWrapperForVersion, createSolcInstance, hget, hfam]
  · intro reg reg' v₁ v₂ w hnorm h₁
    cases hc : jsGet reg.wrappers (normalizeSolcVersion v₁) with
    | some w0 =>
      simp only [getSolcWrapperForVersion, hc, Except.ok.injEq,
        Prod.mk.injEq] at h₁
      obtain ⟨hw, hr⟩ := h₁
      subst hw hr
      simp only [getSolcWrapperForVersion, ← hnorm, hc]
    | none =>
      cases hf : familyOf (normalizeSolcVersion v₁) with
      | none =>
        simp only [getSolcWrapperForVersion, createSolcInstance, hc, hf] at h₁
        exact Except.noConfusion h₁
      | some f =>
        simp only [getSolcWrapperForVersion, createSolcInstance, hc, hf,
          Except.ok.injEq, Prod.mk.injEq] at h₁
        obtain ⟨hw, hr⟩ := h₁
        subst hw
        simp only [getSolcWrapperForVersion, ← hnorm, ← hr,
          jsGet_jsSet_self]
  · exact ⟨by decide, by decide, by decide, by decide, by decide,
      by decide, by decide, by decide, by decide, by decide⟩

/-- Witness for C8: a fresh driver creates the `0.6` wrapper for
`v0.6.12`, and a second request for `0.6.12` (same normalization) returns
the identical instance with the registry unchanged. -/
theorem wrapper_selection_and_registry_witness :
    getSolcWrapperForVersion
      ⟨[("0.6.12", ⟨"0.6.12", .v06, 0⟩)], 1⟩ "0.6.12" =
      .ok (⟨"0.6.12", .v06, 0⟩, ⟨[("0.6.12", ⟨"0.6.12", .v06, 0⟩)], 1⟩) :=
  wrapper_selection_and_registry.2.2.1 ⟨[], 0⟩
    ⟨[("0.6.12", ⟨"0.6.12", .v06, 0⟩)], 1⟩ "v0.6.12" "0.6.12"
    ⟨"0.6.12", .v06, 0⟩ (by decide) (by rfl)

/-- C3: for every `ContractData`, the cache gate answers "must rebuild"
exactly when there is no existing artifact, or its schema version differs
from the current constant, or the wrapper (of the artifact's normalized
compiler version) reports different settings, or the recorded source-tree
hash differs from the newly computed one; otherwise the contract is
skipped. -/
theorem shouldCompile_iff (env : CompilerEnv) (reg reg' : WrapperRegistry)
    (data : ContractData) (b : Bool) (hwf : RegistryWF reg)
    (h : shouldCompile env reg data = .ok (b, reg')) :
    b = true ↔
      (data.currentArtifactIfExists = none ∨
       ∃ a, data.currentArtifactIfExists = some a ∧
         (a.schemaVersion ≠ LATEST_ARTIFACT_VERSION ∨
          env.settingsDifferent (normalizeSolcVersion a.compiler.version)
            a.compiler.settings = true ∨
          a.sourceTreeHashHex ≠ data.sourceTreeHashHex)) := by
  cases hart : data.currentArtifactIfExists with
  | none =>
    simp only [shouldCompile, hart, Except.ok.injEq, Prod.mk.injEq] at h
    simp [hart, h.1.symm]
  | some a =>
    cases hw : getSolcWrapperForVersion reg a.compiler.version with
    | error e =>
      simp only [shouldCompile, hart, hw] at h
      exact Except.noConfusion h
    | ok p =>
      obtain ⟨solc, reg₂⟩ := p
      have hver := (getSolcWrapper_version reg reg₂
        a.compiler.version solc hwf hw).1
      simp only [shouldCompile, hart, hw, Except.ok.injEq,
        Prod.mk.injEq] at h
      obtain ⟨hb, _⟩ := h
      subst hb
      rw [hver]
      constructor
      · intro hbt
        right
        refine ⟨a, rfl, ?_⟩
        simp only [Bool.or_eq_true, Bool.not_eq_eq_eq_not, Bool.not_true,
          beq_eq_false_iff_ne, ne_eq, bne_iff_ne] at hbt
        tauto
      · intro hr
        rcases hr with hnone | ⟨a', ha', hcases⟩
        · cases hnone
        · cases ha'
          simp only [Bool.or_eq_true, Bool.not_eq_eq_eq_not, Bool.not_true,
            beq_eq_false_iff_ne, ne_eq, bne_iff_ne]
          tauto

/-- Witness for C3: a fresh registry and an artifact whose settings the
wrapper reports as different — the gate answers "must rebuild". -/
theorem shouldCompile_iff_witness :
    true = true ↔
      (c3Data.currentArtifactIfExists = none ∨
       ∃ a, c3Data.currentArtifactIfExists = some a ∧
         (a.schemaVersion ≠ LATEST_ARTIFACT_VERSION ∨
          c3Env.settingsDifferent (normalizeSolcVersion a.compiler.version)
            a.compiler.settings = true ∨
          a.sourceTreeHashHex ≠ c3Data.sourceTreeHashHex)) :=
  shouldCompile_iff c3Env WrapperRegistry.empty
    ⟨[("0.5.17", ⟨"0.5.17", .v05, 0⟩)], 1⟩ c3Data true
    registryWF_empty (by rfl)

/-- C9: `JSONCompiler.getCompilerOutputsAsync` returns the empty list on
every run that completes, for every environment, pin and request: the JSON
driver's internal compile routine unconditionally returns an empty list of
per-version outputs. -/
theorem jsonGetCompilerOutputs_empty (env : JsonEnv) (pin : Option String)
    (names : List String) (res : List (Option StandardOutput))
    (h : jsonGetCompilerOutputsAsync env pin names = .ok res) : res = [] := by
  cases hl : jsonCompileLoop env pin false JsonState.init names with
  | error e =>
    simp only [jsonGetCompilerOutputsAsync, jsonCompileContractsAsync,
      hl] at h
    exact Except.noConfusion h
  | ok st =>
    simp only [jsonGetCompilerOutputsAsync, jsonCompileContractsAsync,
      hl, List.map_nil, Except.ok.injEq] at h
    exact h.symm

/-- Witness for C9: a successful concrete run returns the empty list. -/
theorem jsonGetCompilerOutputs_empty_witness :
    jsonGetCompilerOutputsAsync c9Env none ["X"] = .ok [] ∧
      ([] : List (Option StandardOutput)) = [] :=
  ⟨by rfl, jsonGetCompilerOutputs_empty c9Env none ["X"] [] (by rfl)⟩

/-- The shape of every successful JSON-driver iteration: the bundle
resolved, the planner map gained the bundle's record with hash `"0x"`,
exactly one compile call was appended, and events grew only when
persisting. -/
theorem jsonCompileStep_ok_shape (env : JsonEnv) (pin : Option String)
    (persist : Bool) (st st' : JsonState) (n : String)
    (h : jsonCompileStep env pin persist st n = .ok st') :
    ∃ bundle ver compiler,
      env.resolveBundle n = some bundle ∧
      jsonSelectSolcVersion env pin bundle = .ok ver ∧
      getSolcWrapperForVersion st.registry ver = .ok (compiler, st'.registry) ∧
      st'.contractPathToData = jsSet st.contractPathToData bundle.path
        ⟨env.getArtifact n, "0x", jsBasename n SOLIDITY_FILE_EXTENSION⟩ ∧
      st'.compileCalls =
        st.compileCalls ++ [(compiler.version, bundle.sources)] ∧
      st'.events = (if persist then
        st.events ++ jsonPersistCompiledContract n ver
          (env.compile compiler.version bundle.sources []).input
          (env.compile compiler.version bundle.sources []).output
        else st.events) := by
  cases hres : env.resolveBundle n with
  | none =>
    simp only [jsonCompileStep, hres] at h
    exact Except.noConfusion h
  | some bundle =>
    cases hch : jsonSelectSolcVersion env pin bundle with
    | error e =>
      simp only [jsonCompileStep, hres, hch] at h
      exact Except.noConfusion h
    | ok ver =>
      cases hw : getSolcWrapperForVersion st.registry ver with
      | error e =>
        simp only [jsonCompileStep, hres, hch, hw] at h
        exact Except.noConfusion h
      | ok p =>
        obtain ⟨compiler, reg'⟩ := p
        simp only [jsonCompileStep, hres, hch, hw, Except.ok.injEq] at h
        refine ⟨bundle, ver, compiler, rfl, hch, ?_, ?_, ?_, ?_⟩
        · rw [← h]
          exact hw
        · rw [← h]
        · rw [← h]
        · rw [← h]

/-- Helper: length of the ghost compile-call log grows by one per bundle. -/
theorem jsonCompileLoop_calls_length (env : JsonEnv) (pin : Option String)
    (persist : Bool) :
    ∀ (names : List String) (st final : JsonState),
      jsonCompileLoop env pin persist st names = .ok final →
      final.compileCalls.length = st.compileCalls.length + names.length := by
  intro names
  induction names with
  | nil =>
    intro st final h
    simp only [jsonCompileLoop, Except.ok.injEq] at h
    rw [← h]
    simp
  | cons n rest ih =>
    intro st final h
    cases hs : jsonCompileStep env pin persist st n with
    | error e =>
      simp only [jsonCompileLoop, hs] at h
      exact Except.noConfusion h
    | ok st' =>
      simp only [jsonCompileLoop, hs] at h
      obtain ⟨_, _, _, _, _, _, _, hcalls, _⟩ :=
        jsonCompileStep_ok_shape env pin persist st st' n hs
      have := ih st' final h
      rw [this, hcalls]
      simp
      omega

/-- Helper: every record the JSON planner map holds carries hash `"0x"`. -/
theorem jsonCompileLoop_hash (env : JsonEnv) (pin : Option String)
    (persist : Bool) :
    ∀ (names : List String) (st final : JsonState),
      jsonCompileLoop env pin persist st names = .ok final →
      (∀ p ∈ st.contractPathToData, p.2.sourceTreeHashHex = "0x") →
      ∀ p ∈ final.contractPathToData, p.2.sourceTreeHashHex = "0x" := by
  intro names
  induction names with
  | nil =>
    intro st final h hst
    simp only [jsonCompileLoop, Except.ok.injEq] at h
    rw [← h]
    exact hst
  | cons n rest ih =>
    intro st final h hst
    cases hs : jsonCompileStep env pin persist st n with
    | error e =>
      simp only [jsonCompileLoop, hs] at h
      exact Except.noConfusion h
    | ok st' =>
      simp only [jsonCompileLoop, hs] at h
      obtain ⟨bundle, _, _, _, _, _, hpath, _, _⟩ :=
        jsonCompileStep_ok_shape env pin persist st st' n hs
      refine ih st' final h ?_
      intro p hp
      rw [hpath] at hp
      rcases mem_jsSet hp with hp | hp
      · rw [hp]
      · exact hst p hp

/-- Helper: one JSON-driver step behaves identically (registry, compile
calls, events, and error outcome) when `getArtifact` is replaced, for
states agreeing on everything except the planner map. -/
theorem jsonCompileStep_artifact_independent (env : JsonEnv)
    (g : String → Option ContractArtifact) (pin : Option String)
    (persist : Bool) (st₁ st₂ : JsonState) (n : String)
    (hreg : st₁.registry = st₂.registry)
    (hcalls : st₁.compileCalls = st₂.compileCalls)
    (hevents : st₁.events = st₂.events) :
    (jsonCompileStep { env with getArtifact := g } pin persist st₁ n).map
        (fun r => (r.registry, r.compileCalls, r.events)) =
      (jsonCompileStep env pin persist st₂ n).map
        (fun r => (r.registry, r.compileCalls, r.events)) := by
  cases hres : env.resolveBundle n with
  | none =>
    have hres1 : ({ env with getArtifact := g } : JsonEnv).resolveBundle n =
      none := hres
    simp only [jsonCompileStep, hres, hres1, Except.map]
  | some bundle =>
    have hres1 : ({ env with getArtifact := g } : JsonEnv).resolveBundle n =
      some bundle := hres
    cases hch : jsonSelectSolcVersion env pin bundle with
    | error e =>
      have hch1 : jsonSelectSolcVersion { env with getArtifact := g } pin
        bundle = .error e := hch
      simp only [jsonCompileStep, hres, hres1, hch, hch1, Except.map]
    | ok ver =>
      have hch1 : jsonSelectSolcVersion { env with getArtifact := g } pin
        bundle = .ok ver := hch
      cases hw : getSolcWrapperForVersion st₂.registry ver with
      | error e =>
        have hw1 : getSolcWrapperForVersion st₁.registry ver = .error e := by
          rw [hreg]; exact hw
        simp only [jsonCompileStep, hres, hres1, hch, hch1, hw, hw1,
          Except.map]
      | ok p =>
        obtain ⟨compiler, reg'⟩ := p
        have hw1 : getSolcWrapperForVersion st₁.registry ver =
            .ok (compiler, reg') := by
          rw [hreg]; exact hw
        simp only [jsonCompileStep, hres, hres1, hch, hch1, hw, hw1,
          Except.map, Except.ok.injEq, Prod.mk.injEq]
        simp [hcalls, hevents]

/-- Helper: the artifact store influences nothing but the planner map — the
registry, the compile-call log and the write events of a run are unchanged
when `getArtifact` is replaced. -/
theorem jsonCompileLoop_artifact_independent (env : JsonEnv)
    (g : String → Option ContractArtifact) (pin : Option String)
    (persist : Bool) :
    ∀ (names : List String) (st₁ st₂ : JsonState),
      st₁.registry = st₂.registry → st₁.compileCalls = st₂.compileCalls →
      st₁.events = st₂.events →
      (jsonCompileLoop { env with getArtifact := g } pin persist st₁
          names).map (fun r => (r.registry, r.compileCalls, r.events)) =
        (jsonCompileLoop env pin persist st₂ names).map
          (fun r => (r.registry, r.compileCalls, r.events)) := by
  intro names
  induction names with
  | nil =>
    intro st₁ st₂ hreg hcalls hevents
    simp only [jsonCompileLoop, Except.map]
    rw [hreg, hcalls, hevents]
  | cons n rest ih =>
    intro st₁ st₂ hreg hcalls hevents
    have hstep := jsonCompileStep_artifact_independent env g pin persist
      st₁ st₂ n hreg hcalls hevents
    cases hs1 : jsonCompileStep { env with getArtifact := g } pin persist
        st₁ n with
    | error e =>
      cases hs2 : jsonCompileStep env pin persist st₂ n with
      | error e' =>
        rw [hs1, hs2] at hstep
        simp only [Except.map, Except.error.injEq] at hstep
        simp only [jsonCompileLoop, hs1, hs2, hstep, Except.map]
      | ok st2' =>
        rw [hs1, hs2] at hstep
        simp only [Except.map] at hstep
        exact Except.noConfusion hstep
    | ok st1' =>
      cases hs2 : jsonCompileStep env pin persist st₂ n with
      | error e' =>
        rw [hs1, hs2] at hstep
        simp only [Except.map] at hstep
        exact Except.noConfusion hstep
      | ok st2' =>
        rw [hs1, hs2] at hstep
        simp only [Except.map, Except.ok.injEq, Prod.mk.injEq] at hstep
        obtain ⟨hr, hc, he⟩ := hstep
        simp only [jsonCompileLoop, hs1, hs2]
        exact ih st1' st2' hr hc he

/-- C10: the JSON driver never consults the artifact-cache gate: every
successful run records the constant source-tree hash `"0x"` for every
bundle, performs exactly one back-end compile call per requested bundle,
and its compile calls and writes are identical whatever artifacts already
exist (`getArtifact` replaced arbitrarily). -/
theorem json_driver_never_consults_cache :
    (∀ (env : JsonEnv) (pin : Option String) (persist : Bool)
        (names : List String) (st : JsonState)
        (outs : List (List StandardOutput)),
      jsonCompileContractsAsync env pin persist names = .ok (st, outs) →
      st.compileCalls.length = names.length ∧
      ∀ p ∈ st.contractPathToData, p.2.sourceTreeHashHex = "0x")
  ∧ (∀ (env : JsonEnv) (g : String → Option ContractArtifact)
        (pin : Option String) (persist : Bool) (names : List String),
      (jsonCompileContractsAsync { env with getArtifact := g } pin persist
          names).map (fun r => (r.1.registry, r.1.compileCalls, r.1.events))
        = (jsonCompileContractsAsync env pin persist names).map
            (fun r => (r.1.registry, r.1.compileCalls, r.1.events))) := by
  constructor
  · intro env pin persist names st outs h
    cases hl : jsonCompileLoop env pin persist JsonState.init names with
    | error e =>
      simp only [jsonCompileContractsAsync, hl] at h
      exact Except.noConfusion h
    | ok st0 =>
      simp only [jsonCompileContractsAsync, hl, Except.ok.injEq,
        Prod.mk.injEq] at h
      obtain ⟨hst, _⟩ := h
      subst hst
      constructor
      · have := jsonCompileLoop_calls_length env pin persist names
          JsonState.init st0 hl
        simpa [JsonState.init] using this
      · exact jsonCompileLoop_hash env pin persist names JsonState.init st0
          hl (by intro p hp; simp [JsonState.init] at hp)
  · intro env g pin persist names
    have hli := jsonCompileLoop_artifact_independent env g pin persist names
      JsonState.init JsonState.init rfl rfl rfl
    cases h₁ : jsonCompileLoop { env with getArtifact := g } pin persist
        JsonState.init names with
    | error e =>
      rw [h₁] at hli
      cases h₂ : jsonCompileLoop env pin persist JsonState.init names with
      | error e' =>
        rw [h₂] at hli
        simp only [Except.map, Except.error.injEq] at hli
        simp only [jsonCompileContractsAsync, h₁, h₂, hli, Except.map]
      | ok st₂ =>
        rw [h₂] at hli
        simp only [Except.map] at hli
        exact Except.noConfusion hli
    | ok st₁ =>
      rw [h₁] at hli
      cases h₂ : jsonCompileLoop env pin persist JsonState.init names with
      | error e' =>
        rw [h₂] at hli
        simp only [Except.map] at hli
        exact Except.noConfusion hli
      | ok st₂ =>
        rw [h₂] at hli
        simp only [Except.map, Except.ok.injEq] at hli
        simp only [jsonCompileContractsAsync, h₁, h₂, Except.map,
          Except.ok.injEq]
        exact hli

/-- Witness for C10: a concrete successful run with one bundle (whose
up-to-date artifact exists) still performs exactly one compile call. -/
theorem json_driver_never_consults_cache_witness :
    jsonCompileContractsAsync c9Env none true ["X"] = .ok (c10State, []) ∧
      c10State.compileCalls.length = 1 :=
  ⟨by rfl, (json_driver_never_consults_cache.1 c9Env none true ["X"]
    c10State [] (by rfl)).1⟩

/-- C1 counterexample: in the batched S4 run the writer also emits
`A-B.json` (and `B-A.json`, `B-L.json`) — `_persistCompiledContractAsync`
writes one artifact per source file of the unit's output per persisted
root — so the written set is not exactly {`A-A.json`, `B-B.json`,
`A-L.json`}. -/
theorem c1_counterexample :
    c1WrittenFiles = .ok ["A-A.json", "A-L.json", "A-B.json",
      "B-A.json", "B-L.json", "B-B.json"] ∧
    "A-B.json" ∉ ["A-A.json", "B-B.json", "A-L.json"] :=
  ⟨by rfl, by decide⟩

/-- C1 amended: in the batched S4 run (roots `A`, `B`, both importing `L`,
sharing one unit) the run writes exactly the files `A-A.json`, `A-L.json`,
`A-B.json`, `B-A.json`, `B-L.json`, `B-B.json` under the artifacts
directory, in this order: each persisted root writes one artifact per
source file of its unit's output, named `<root>-<basename>.json`. -/
theorem c1_amended :
    c1WrittenFiles = .ok ["A-A.json", "A-L.json", "A-B.json",
      "B-A.json", "B-L.json", "B-B.json"] := by rfl

/-- C7 counterexample: a unit path with planner data whose compile output
has neither the path key nor the empty-string key in `contracts`: the
writer aborts with the runtime `TypeError` of reading a property of
`undefined`, not with `MissingContractError`. -/
theorem c7_counterexample :
    writerStep [("/c/A.sol", ⟨none, "0x", "A"⟩)] WriterState.init
      ⟨"0.6.12", [("/c/A.sol", "srcA")], ⟨⟨"s"⟩, ⟨[], []⟩⟩, "/c/A.sol"⟩ =
      .error .jsTypeError ∧
    CompilerError.jsTypeError ≠
      CompilerError.missingContract "A" "/c/A.sol" :=
  ⟨by rfl, by decide⟩

/-- C7 amended: for a unit path with planner data, the writer locates the
compiled record under `output.contracts[absolute_path][contract_name]`,
falling back to `output.contracts[""]` only when the path key is absent,
and fails with `MissingContractError` when the located family object lacks
the contract name; when neither the path key nor the empty-string key is
present, the run aborts with a runtime `TypeError` instead of
`MissingContractError`. -/
theorem writer_lookup_and_missing_contract :
    (∀ (pathToData : JsObj ContractData) (st : WriterState)
        (item : PersistItem) (data : ContractData) (fam : JsObj String),
      jsGet pathToData item.contractPath = some data →
      jsGet item.result.output.contracts item.contractPath = some fam →
      jsGet fam data.contractName = none →
      writerStep pathToData st item =
        .error (.missingContract data.contractName item.contractPath))
  ∧ (∀ (pathToData : JsObj ContractData) (st : WriterState)
        (item : PersistItem) (data : ContractData) (fam : JsObj String),
      jsGet pathToData item.contractPath = some data →
      jsGet item.result.output.contracts item.contractPath = none →
      jsGet item.result.output.contracts "" = some fam →
      jsGet fam data.contractName = none →
      writerStep pathToData st item =
        .error (.missingContract data.contractName item.contractPath))
  ∧ (∀ (pathToData : JsObj ContractData) (st : WriterState)
        (item : PersistItem) (data : ContractData),
      jsGet pathToData item.contractPath = some data →
      jsGet item.result.output.contracts item.contractPath = none →
      jsGet item.result.output.contracts "" = none →
      writerStep pathToData st item = .error .jsTypeError)
  ∧ (∀ (pathToData : JsObj ContractData) (st : WriterState)
        (item : PersistItem) (data : ContractData) (fam : JsObj String)
        (c : String) (cached : Nat),
      jsGet pathToData item.contractPath = some data →
      jsGet item.result.output.contracts item.contractPath = some fam →
      jsGet fam data.contractName = some c →
      jsGet st.artifactCache item.contractPath = some cached →
      cached ≤ item.unit.length →
      writerStep pathToData st item = .ok st) := by
  refine ⟨?_, ?_, ?_, ?_⟩
  · intro pathToData st item data fam hdata hfam hname
    simp only [writerStep, hdata, hfam, hname, Option.elim]
  · intro pathToData st item data fam hdata hpath hfam hname
    simp only [writerStep, hdata, hpath, hfam, hname, Option.elim]
  · intro pathToData st item data hdata hpath hempty
    simp only [writerStep, hdata, hpath, hempty, Option.elim]
  · intro pathToData st item data fam c cached hdata hfam hname hcache hle
    simp only [writerStep, hdata, hfam, hname, hcache, Option.elim,
      decide_eq_true_eq, hle, if_pos]

/-- Witness for the amended C7: the fallback family object lacks the
contract name, so the writer fails with `MissingContractError`. -/
theorem writer_lookup_and_missing_contract_witness :
    writerStep [("/c/A.sol", ⟨none, "0x", "A"⟩)] WriterState.init
      ⟨"0.6.12", [("/c/A.sol", "srcA")],
        ⟨⟨"s"⟩, ⟨[("", [("Z", "z")])], []⟩⟩, "/c/A.sol"⟩ =
      .error (.missingContract "A" "/c/A.sol") :=
  writer_lookup_and_missing_contract.2.1 [("/c/A.sol", ⟨none, "0x", "A"⟩)]
    WriterState.init
    ⟨"0.6.12", [("/c/A.sol", "srcA")],
      ⟨⟨"s"⟩, ⟨[("", [("Z", "z")])], []⟩⟩, "/c/A.sol"⟩
    ⟨none, "0x", "A"⟩ [("Z", "z")] (by rfl) (by rfl) (by rfl) (by rfl)

/-- A key of `jsSet m k v` is a key of `m` or `k` itself. -/
theorem mem_jsKeys_jsSet {α : Type} {m : JsObj α} {k x : String} {v : α}
    (h : x ∈ jsKeys (jsSet m k v)) : x ∈ jsKeys m ∨ x = k := by
  simp only [jsKeys, List.mem_map] at h ⊢
  obtain ⟨q, hq, hx⟩ := h
  rcases mem_jsSet hq with h | h
  · right
    rw [← hx, h]
  · left
    exact ⟨q, h, hx⟩

/-- The cache gate preserves the registry invariant. -/
theorem shouldCompile_wf (env : CompilerEnv) (reg reg' : WrapperRegistry)
    (data : ContractData) (b : Bool) (hwf : RegistryWF reg)
    (h : shouldCompile env reg data = .ok (b, reg')) : RegistryWF reg' := by
  cases hart : data.currentArtifactIfExists with
  | none =>
    simp only [shouldCompile, hart, Except.ok.injEq, Prod.mk.injEq] at h
    rw [← h.2]
    exact hwf
  | some a =>
    cases hw : getSolcWrapperForVersion reg a.compiler.version with
    | error e =>
      simp only [shouldCompile, hart, hw] at h
      exact Except.noConfusion h
    | ok p =>
      obtain ⟨solc, reg₂⟩ := p
      simp only [shouldCompile, hart, hw, Except.ok.injEq,
        Prod.mk.injEq] at h
      rw [← h.2]
      exact (getSolcWrapper_version reg reg₂ a.compiler.version solc
        hwf hw).2

/-- Every version key a pinned planning step adds to the plan is the pin;
and the registry invariant is preserved. -/
theorem planStep_pin (env : CompilerEnv) (p : String) (ind : Bool)
    (st st' : PlanState) (n : String) (hwf : RegistryWF st.registry)
    (h : planStep env (some p) ind st n = .ok st') :
    (∀ v ∈ jsKeys st'.compilationUnitsByVersion,
      v ∈ jsKeys st.compilationUnitsByVersion ∨ v = p) ∧
    RegistryWF st'.registry := by
  cases hres : env.resolve n with
  | none =>
    simp only [planStep, hres] at h
    exact Except.noConfusion h
  | some r =>
    cases hsc : shouldCompile env st.registry
        ⟨env.getArtifact n, "0x" ++ r.treeHashHex,
          jsBasename n SOLIDITY_FILE_EXTENSION⟩ with
    | error e =>
      simp only [planStep, hres, hsc] at h
      exact Except.noConfusion h
    | ok pr =>
      obtain ⟨b, reg'⟩ := pr
      have hwf' := shouldCompile_wf env st.registry reg' _ b hwf hsc
      cases b with
      | false =>
        simp only [planStep, hres, hsc, Bool.not_false, if_true,
          Except.ok.injEq] at h
        rw [← h]
        exact ⟨fun v hv => Or.inl hv, hwf'⟩
      | true =>
        simp only [planStep, hres, hsc, selectSolcVersion, Bool.not_true,
          Bool.false_eq_true, if_false, Except.ok.injEq] at h
        rw [← h]
        refine ⟨?_, hwf'⟩
        intro v hv
        simp only at hv
        exact mem_jsKeys_jsSet hv

/-- Loop version of `planStep_pin`. -/
theorem planContracts_pin (env : CompilerEnv) (p : String) (ind : Bool) :
    ∀ (names : List String) (st final : PlanState),
      RegistryWF st.registry →
      planContracts env (some p) ind st names = .ok final →
      (∀ v ∈ jsKeys st.compilationUnitsByVersion, v = p) →
      (∀ v ∈ jsKeys final.compilationUnitsByVersion, v = p) ∧
      RegistryWF final.registry := by
  intro names
  induction names with
  | nil =>
    intro st final hwf h hst
    simp only [planContracts, Except.ok.injEq] at h
    rw [← h]
    exact ⟨hst, hwf⟩
  | cons n rest ih =>
    intro st final hwf h hst
    cases hs : planStep env (some p) ind st n with
    | error e =>
      simp only [planContracts, hs] at h
      exact Except.noConfusion h
    | ok st' =>
      simp only [planContracts, hs] at h
      obtain ⟨hkeys, hwf'⟩ := planStep_pin env p ind st st' n hwf hs
      refine ih st' final hwf' h ?_
      intro v hv
      rcases hkeys v hv with hv' | hv'
      · exact hst v hv'
      · exact hv'

/-- Every ghost compile call of the dispatcher uses the normalized version
of some version key of the plan. -/
theorem dispatchUnits_calls (env : CompilerEnv) (remap : JsObj String) :
    ∀ (plan : List (String × List CompilationUnit))
      (reg : WrapperRegistry) (d : DispatchResult), RegistryWF reg →
      dispatchUnits env remap reg plan = .ok d →
      ∀ c ∈ d.compileCalls, ∃ pv,
        (∃ us, (pv, us) ∈ plan) ∧ c.1 = normalizeSolcVersion pv := by
  intro plan
  induction plan with
  | nil =>
    intro reg d _ h c hc
    simp only [dispatchUnits, Except.ok.injEq] at h
    rw [← h] at hc
    simp at hc
  | cons vu rest ih =>
    intro reg d hwf h c hc
    obtain ⟨solcVersion, units⟩ := vu
    cases hw : getSolcWrapperForVersion reg solcVersion with
    | error e =>
      simp only [dispatchUnits, hw] at h
      exact Except.noConfusion h
    | ok p =>
      obtain ⟨compiler, reg'⟩ := p
      obtain ⟨hver, hwf'⟩ := getSolcWrapper_version reg reg' solcVersion
        compiler hwf hw
      cases hrest : dispatchUnits env remap reg' rest with
      | error e =>
        simp only [dispatchUnits, hw, hrest] at h
        exact Except.noConfusion h
      | ok d' =>
        simp only [dispatchUnits, hw, hrest, Except.ok.injEq] at h
        rw [← h] at hc
        simp only [List.mem_append, List.mem_map] at hc
        rcases hc with ⟨u, _, hcu⟩ | hc
        · refine ⟨solcVersion, ⟨units, List.mem_cons_self _ _⟩, ?_⟩
          rw [← hcu, hver]
        · obtain ⟨pv, ⟨us, hus⟩, hcv⟩ := ih reg' d' hwf' hrest c hc
          exact ⟨pv, ⟨us, List.mem_cons_of_mem _ hus⟩, hcv⟩

/-- C4: the pin comes from `SOLCJS_PATH` when that variable is set (its
filename encodes the version), else from `opts.solcVersion`; and when a pin
`p` is set, every version key of a successful run's plan equals `p`
verbatim and every back-end compile call uses `p` after normalization
(stripping any leading `v`) — whatever the contracts' pragma constraints,
since the statement holds for every environment. -/
theorem version_pin_dominance :
    (∀ (getV : String → String) (path : String)
        (optsPin : Option String),
      solcVersionIfExists getV (some path) optsPin = some (getV path) ∧
      solcVersionIfExists getV none optsPin = optsPin)
  ∧ (∀ (env : CompilerEnv) (p : String) (opts : DriverOpts)
        (names : List String) (res : RunResult),
      compileContractsAsync env (some p) opts names = .ok res →
      (∀ v ∈ jsKeys res.plan, v = p) ∧
      (∀ c ∈ res.compileCalls, c.1 = normalizeSolcVersion p)) := by
  constructor
  · intro getV path optsPin
    exact ⟨rfl, rfl⟩
  · intro env p opts names res h
    cases hpl : planContracts env (some p) opts.shouldCompileIndependently
        PlanState.init names with
    | error e =>
      simp only [compileContractsAsync, hpl] at h
      exact Except.noConfusion h
    | ok st =>
      obtain ⟨hkeys, hwf⟩ := planContracts_pin env p
        opts.shouldCompileIndependently names PlanState.init st
        registryWF_empty hpl (by intro v hv; simp [PlanState.init,
          jsKeys] at hv)
      cases hd : dispatchUnits env (env.remappingsOf
          st.resolvedContractSources) st.registry
          st.compilationUnitsByVersion with
      | error e =>
        simp only [compileContractsAsync, hpl, hd] at h
        exact Except.noConfusion h
      | ok d =>
        have hcalls := dispatchUnits_calls env
          (env.remappingsOf st.resolvedContractSources)
          st.compilationUnitsByVersion st.registry d hwf hd
        cases hwr : (if opts.shouldPersist then
            runWriter st.contractPathToData WriterState.init
              (persistItems st.compilationUnitsByVersion d.results)
          else .ok WriterState.init) with
        | error e =>
          simp only [compileContractsAsync, hpl, hd, hwr] at h
          exact Except.noConfusion h
        | ok w =>
          simp only [compileContractsAsync, hpl, hd, hwr,
            Except.ok.injEq] at h
          rw [← h]
          constructor
          · intro v hv
            exact hkeys v hv
          · intro c hc
            obtain ⟨pv, ⟨us, hus⟩, hcv⟩ := hcalls c hc
            have : pv ∈ jsKeys st.compilationUnitsByVersion := by
              simp only [jsKeys, List.mem_map]
              exact ⟨(pv, us), hus, rfl⟩
            rw [hcv, hkeys pv this]

/-- Witness for C4: pinned to `v0.6.12` against an unsatisfiable pragma,
the run succeeds and its compile call uses the normalized pin. -/
theorem version_pin_dominance_witness :
    compileContractsAsync c4Env (some "v0.6.12") ⟨false, false⟩ ["A"] =
      .ok c4Result ∧ "0.6.12" = normalizeSolcVersion "v0.6.12" :=
  ⟨by rfl, (version_pin_dominance.2 c4Env "v0.6.12" ⟨false, false⟩ ["A"]
    c4Result (by rfl)).2 ("0.6.12", [("/c/A.sol", "srcA")]) (by decide)⟩

/-- When nothing satisfies, the running-maximum scan returns its
accumulator unchanged. -/
theorem maxSat_all_unsat (verLe : String → String → Bool)
    (sat : String → Bool) :
    ∀ (vs : List String) (acc : Option String),
      (∀ w ∈ vs, sat w = false) →
      vs.foldl (maxSatStep verLe sat) acc = acc := by
  intro vs
  induction vs with
  | nil => intro acc _; rfl
  | cons v rest ih =>
    intro acc hall
    have hv : sat v = false := hall v (List.mem_cons_self _ _)
    simp only [List.foldl_cons]
    rw [show maxSatStep verLe sat acc v = acc by
      simp [maxSatStep, hv]]
    exact ih acc (fun w hw => hall w (List.mem_cons_of_mem _ hw))

/-- Full specification of the running-maximum scan for a total transitive
`verLe`: a `none` result means nothing satisfied; a `some bf` result
satisfies, stems from the list or the accumulator, and dominates every
satisfying list element as well as the accumulator. -/
theorem maxSat_foldl_spec (verLe : String → String → Bool)
    (sat : String → Bool)
    (htot : ∀ a b, verLe a b = true ∨ verLe b a = true)
    (htrans : ∀ a b c, verLe a b = true → verLe b c = true →
      verLe a c = true) :
    ∀ (vs : List String) (acc : Option String),
      (∀ b, acc = some b → sat b = true) →
      (vs.foldl (maxSatStep verLe sat) acc = none →
        acc = none ∧ ∀ w ∈ vs, sat w = false) ∧
      (∀ bf, vs.foldl (maxSatStep verLe sat) acc = some bf →
        sat bf = true ∧ (bf ∈ vs ∨ acc = some bf) ∧
        (∀ w ∈ vs, sat w = true → verLe w bf = true) ∧
        (∀ b0, acc = some b0 → verLe b0 bf = true)) := by
  have hrefl : ∀ a, verLe a a = true := fun a => (htot a a).elim id id
  intro vs
  induction vs with
  | nil =>
    intro acc hacc
    constructor
    · intro h
      exact ⟨h, by simp⟩
    · intro bf h
      simp only [List.foldl_nil] at h
      refine ⟨hacc bf h, Or.inr h, by simp, ?_⟩
      intro b0 hb0
      rw [h] at hb0
      injection hb0 with hbb
      rw [← hbb]
      exact hrefl bf
  | cons v rest ih =>
    intro acc hacc
    have hacc' : ∀ b, maxSatStep verLe sat acc v = some b →
        sat b = true := by
      intro b hb
      by_cases hsv : sat v = true
      · cases hacc0 : acc with
        | none =>
          rw [hacc0] at hb
          simp only [maxSatStep, hsv, if_true] at hb
          injection hb with hbb
          rw [← hbb]
          exact hsv
        | some b0 =>
          rw [hacc0] at hb
          by_cases hle : verLe b0 v = true
          · simp only [maxSatStep, hsv, if_true, hle] at hb
            injection hb with hbb
            rw [← hbb]
            exact hsv
          · simp only [maxSatStep, hsv, if_true, hle, Bool.false_eq_true, if_false] at hb
            injection hb with hbb
            rw [← hbb]
            exact hacc b0 hacc0
      · rw [show maxSatStep verLe sat acc v = acc by
          simp [maxSatStep, hsv]] at hb
        exact hacc b hb
    obtain ⟨ihn, ihs⟩ := ih (maxSatStep verLe sat acc v) hacc'
    simp only [List.foldl_cons]
    constructor
    · intro h
      obtain ⟨hstep, hrest⟩ := ihn h
      have hme : sat v = false ∧ acc = none := by
        by_cases hsv : sat v = true
        · exfalso
          cases hacc0 : acc with
          | none =>
            rw [hacc0] at hstep
            simp [maxSatStep, hsv] at hstep
          | some b0 =>
            rw [hacc0] at hstep
            by_cases hle : verLe b0 v = true
            · simp [maxSatStep, hsv, hle] at hstep
            · simp [maxSatStep, hsv, hle] at hstep
        · rw [show maxSatStep verLe sat acc v = acc by
            simp [maxSatStep, hsv]] at hstep
          exact ⟨by simpa using hsv, hstep⟩
      refine ⟨hme.2, ?_⟩
      intro w hw
      rcases List.mem_cons.mp hw with rfl | hw
      · exact hme.1
      · exact hrest w hw
    · intro bf h
      obtain ⟨hsat, hmem, hmax, hdom⟩ := ihs bf h
      refine ⟨hsat, ?_, ?_, ?_⟩
      · rcases hmem with hm | hm
        · exact Or.inl (List.mem_cons_of_mem _ hm)
        · by_cases hsv : sat v = true
          · cases hacc0 : acc with
            | none =>
              rw [hacc0] at hm
              simp only [maxSatStep, hsv, if_true] at hm
              injection hm with hbb
              left
              rw [← hbb]
              exact List.mem_cons_self _ _
            | some b0 =>
              rw [hacc0] at hm
              by_cases hle : verLe b0 v = true
              · simp only [maxSatStep, hsv, if_true, hle] at hm
                injection hm with hbb
                left
                rw [← hbb]
                exact List.mem_cons_self _ _
              · simp only [maxSatStep, hsv, if_true, hle, Bool.false_eq_true, if_false] at hm
                right
                exact hm
          · rw [show maxSatStep verLe sat acc v = acc by
              simp [maxSatStep, hsv]] at hm
            exact Or.inr hm
      · intro w hw hsw
        rcases List.mem_cons.mp hw with rfl | hw
        · cases hacc0 : acc with
          | none =>
            refine hdom w ?_
            rw [hacc0]
            simp [maxSatStep, hsw]
          | some b0 =>
            by_cases hle : verLe b0 w = true
            · refine htrans w w bf (hrefl w) (hdom w ?_)
              rw [hacc0]
              simp [maxSatStep, hsw, hle]
            · have hvb0 : verLe w b0 = true := (htot b0 w).resolve_left hle
              refine htrans w b0 bf hvb0 (hdom b0 ?_)
              rw [hacc0]
              simp [maxSatStep, hsw, hle]
        · exact hmax w hw hsw
      · intro b0 hb0
        by_cases hsv : sat v = true
        · by_cases hle : verLe b0 v = true
          · refine htrans b0 v bf hle (hdom v ?_)
            rw [hb0]
            simp [maxSatStep, hsv, hle]
          · refine hdom b0 ?_
            rw [hb0]
            simp [maxSatStep, hsv, hle]
        · refine hdom b0 ?_
          rw [hb0]
          simp [maxSatStep, hsv]

theorem c5WitEnv_verLe_total :
    ∀ a b, c5WitEnv.verLe a b = true ∨ c5WitEnv.verLe b a = true := by
  intro a b
  rcases Nat.le_total a.data.length b.data.length with h | h
  · left
    exact decide_eq_true h
  · right
    exact decide_eq_true h

theorem c5WitEnv_verLe_trans :
    ∀ a b c, c5WitEnv.verLe a b = true → c5WitEnv.verLe b c = true →
      c5WitEnv.verLe a c = true := by
  intro a b c hab hbc
  exact decide_eq_true
    (Nat.le_trans (of_decide_eq_true hab) (of_decide_eq_true hbc))

/-- C5: without a pin, and for a total transitive `verLe`, a successful
selection returns the normalized full version of a maximal short version of
the release index satisfying the contract's range; when no indexed version
satisfies, the selector fails with `UnsatisfiableVersionError`; and the S5
run (`^9.9.9` pragma) aborts with `UnsatisfiableVersionError` before any
artifact is written (the run produces no result at all, hence no write
events). -/
theorem version_selection_no_pin :
    (∀ (env : CompilerEnv) (source sv full : String),
      (∀ a b, env.verLe a b = true ∨ env.verLe b a = true) →
      (∀ a b c, env.verLe a b = true → env.verLe b c = true →
        env.verLe a c = true) →
      maxSatisfying env.verLe
        (fun v => env.satisfies v (env.parseRange source))
        (jsKeys env.releases) = some sv →
      jsGet env.releases sv = some full →
      (selectSolcVersion env none source =
        .ok (normalizeSolcVersion full) ∧
       sv ∈ jsKeys env.releases ∧
       env.satisfies sv (env.parseRange source) = true ∧
       ∀ w ∈ jsKeys env.releases,
         env.satisfies w (env.parseRange source) = true →
         env.verLe w sv = true))
  ∧ (∀ (env : CompilerEnv) (source : String),
      (∀ w ∈ jsKeys env.releases,
        env.satisfies w (env.parseRange source) = false) →
      selectSolcVersion env none source =
        .error (.unsatisfiableVersion (env.parseRange source)))
  ∧ compileContractsAsync c5Env none ⟨true, false⟩ ["A"] =
      .error (.unsatisfiableVersion "^9.9.9") := by
  refine ⟨?_, ?_, ?_⟩
  · intro env source sv full htot htrans hmax hfull
    obtain ⟨_, ihs⟩ := maxSat_foldl_spec env.verLe
      (fun v => env.satisfies v (env.parseRange source)) htot htrans
      (jsKeys env.releases) none (by intro b hb; exact Option.noConfusion hb)
    obtain ⟨hsat, hmem, hmaxi, _⟩ := ihs sv hmax
    refine ⟨?_, ?_, hsat, hmaxi⟩
    · simp only [selectSolcVersion, hmax, hfull]
    · rcases hmem with hm | hm
      · exact hm
      · exact Option.noConfusion hm
  · intro env source hall
    have hnone : maxSatisfying env.verLe
        (fun v => env.satisfies v (env.parseRange source))
        (jsKeys env.releases) = none :=
      maxSat_all_unsat env.verLe _ (jsKeys env.releases) none hall
    simp only [selectSolcVersion, hnone]
  · rfl

/-- Witness for C5: a two-release index where `0.6.12` is the satisfying
maximum, and the S5-style unsatisfiable case, both settled by the theorem. -/
theorem version_selection_no_pin_witness :
    selectSolcVersion c5WitEnv none "s" =
      .ok (normalizeSolcVersion "v0.6.12+commit.B") ∧
    selectSolcVersion c5Env none "srcA" =
      .error (.unsatisfiableVersion "^9.9.9") :=
  ⟨(version_selection_no_pin.1 c5WitEnv "s" "0.6.12" "v0.6.12+commit.B"
      c5WitEnv_verLe_total c5WitEnv_verLe_trans (by rfl) (by rfl)).1,
    version_selection_no_pin.2.1 c5Env "srcA" (by decide)⟩

/-- The keys of a JS object after a write: unchanged when the key existed,
extended by the key otherwise. -/
theorem jsKeys_jsSet {α : Type} (m : JsObj α) (k : String) (v : α) :
    jsKeys (jsSet m k v) =
      if m.any (fun p => p.1 == k) then jsKeys m else jsKeys m ++ [k] := by
  unfold jsSet
  by_cases h : m.any (fun p => p.1 == k)
  · rw [if_pos h, if_pos h]
    clear h
    induction m with
    | nil => rfl
    | cons hd tl ih =>
      simp only [List.map_cons, jsKeys] at ih ⊢
      by_cases hk : hd.1 = k
      · have hb : (hd.1 == k) = true := by simpa using hk
        simp only [hb, if_true]
        rw [hk]
        exact congrArg (k :: ·) ih
      · have hb : (hd.1 == k) = false := by simpa using hk
        simp only [hb, Bool.false_eq_true, if_false]
        exact congrArg (hd.1 :: ·) ih
  · rw [if_neg h, if_neg h]
    simp [jsKeys]

/-- A key present before a write is present after it. -/
theorem jsKeys_mono_jsSet {α : Type} {m : JsObj α} {k x : String} {v : α}
    (h : x ∈ jsKeys m) : x ∈ jsKeys (jsSet m k v) := by
  rw [jsKeys_jsSet]
  by_cases ha : m.any (fun p => p.1 == k)
  · rw [if_pos ha]
    exact h
  · rw [if_neg ha]
    exact List.mem_append_left _ h

/-- A successful read means the key is present. -/
theorem mem_jsKeys_of_jsGet {α : Type} {m : JsObj α} {k : String} {v : α}
    (h : jsGet m k = some v) : k ∈ jsKeys m := by
  unfold jsGet at h
  obtain ⟨q, hfind, _⟩ := Option.map_eq_some'.mp h
  have hq := List.find?_some hfind
  have hqk : q.1 = k := by simpa using hq
  simp only [jsKeys, List.mem_map]
  exact ⟨q, List.mem_of_find?_eq_some hfind, hqk⟩

/-- Keys only grow while a unit is filled. -/
theorem mem_jsKeys_fillUnit_of_mem {x : String} :
    ∀ (srcs : List ContractSource) (u : CompilationUnit),
      x ∈ jsKeys u → x ∈ jsKeys (fillUnit u srcs) := by
  intro srcs
  induction srcs with
  | nil => intro u h; exact h
  | cons cs rest ih =>
    intro u h
    exact ih _ (jsKeys_mono_jsSet h)

/-- Every recorded source ends up as a key of the filled unit. -/
theorem mem_jsKeys_fillUnit :
    ∀ (srcs : List ContractSource) (u : CompilationUnit)
      (cs : ContractSource), cs ∈ srcs →
      cs.absolutePath ∈ jsKeys (fillUnit u srcs) := by
  intro srcs
  induction srcs with
  | nil => intro u cs h; cases h
  | cons c rest ih =>
    intro u cs h
    rcases List.mem_cons.mp h with rfl | h
    · exact mem_jsKeys_fillUnit_of_mem rest _
        (mem_jsKeys_of_jsGet (jsGet_jsSet_self u cs.absolutePath cs.source))
    · exact ih _ cs h

/-- Case analysis of one successful planning step: either the root was
skipped by the cache gate (plan and survivors unchanged), or a version was
chosen, the root's recorded sources were placed into the plan for that
version — a fresh unit in independent mode, the first (possibly new) unit
otherwise — and the root was recorded as a survivor. -/
theorem planStep_ok_cases (env : CompilerEnv) (pin : Option String)
    (ind : Bool) (st st' : PlanState) (n : String)
    (h : planStep env pin ind st n = .ok st') :
    (st'.compilationUnitsByVersion = st.compilationUnitsByVersion ∧
     st'.survivors = st.survivors) ∨
    (∃ r v, env.resolve n = some r ∧
      selectSolcVersion env pin r.root.source = .ok v ∧
      st'.compilationUnitsByVersion =
        jsSet st.compilationUnitsByVersion v
          (if ind then
            ((jsGet st.compilationUnitsByVersion v).getD []) ++
              [fillUnit [] r.recorded]
          else
            match (jsGet st.compilationUnitsByVersion v).getD [] with
            | [] => [fillUnit [] r.recorded]
            | u :: rest => fillUnit u r.recorded :: rest) ∧
      st'.survivors = st.survivors ++
        [⟨n, v, r.recorded.map (fun cs => cs.absolutePath)⟩]) := by
  cases hres : env.resolve n with
  | none =>
    simp only [planStep, hres] at h
    exact Except.noConfusion h
  | some r =>
    cases hsc : shouldCompile env st.registry
        ⟨env.getArtifact n, "0x" ++ r.treeHashHex,
          jsBasename n SOLIDITY_FILE_EXTENSION⟩ with
    | error e =>
      simp only [planStep, hres, hsc] at h
      exact Except.noConfusion h
    | ok pr =>
      obtain ⟨b, reg'⟩ := pr
      cases b with
      | false =>
        simp only [planStep, hres, hsc, Bool.not_false, if_true,
          Except.ok.injEq] at h
        left
        rw [← h]
        exact ⟨rfl, rfl⟩
      | true =>
        cases hsel : selectSolcVersion env pin r.root.source with
        | error e =>
          simp only [planStep, hres, hsc, Bool.not_true,
            Bool.false_eq_true, if_false, hsel] at h
          exact Except.noConfusion h
        | ok v =>
          simp only [planStep, hres, hsc, Bool.not_true,
            Bool.false_eq_true, if_false, hsel, Except.ok.injEq] at h
          right
          refine ⟨r, v, rfl, hsel, ?_, ?_⟩ <;> rw [← h]

/-- A present key yields a successful read. -/
theorem jsGet_isSome_of_mem_jsKeys {α : Type} :
    ∀ {m : JsObj α} {k : String}, k ∈ jsKeys m → ∃ v, jsGet m k = some v := by
  intro m
  induction m with
  | nil => intro k h; cases h
  | cons hd tl ih =>
    intro k h
    rw [jsGet_cons]
    by_cases hk : hd.1 = k
    · exact ⟨hd.2, by rw [if_pos hk]⟩
    · rcases List.mem_cons.mp h with h | h
      · exact absurd h.symm hk
      · rw [if_neg hk]
        exact ih h

/-- The batched-mode planning invariant: every planned version owns exactly
one unit, and every survivor's version is planned with all its recorded
paths inside that single unit. -/
theorem planContracts_batched_inv (env : CompilerEnv) (pin : Option String) :
    ∀ (names : List String) (st final : PlanState),
      planContracts env pin false st names = .ok final →
      ((∀ v us, jsGet st.compilationUnitsByVersion v = some us →
          us.length = 1) ∧
       (∀ s ∈ st.survivors,
          s.solcVersion ∈ jsKeys st.compilationUnitsByVersion ∧
          ∀ us, jsGet st.compilationUnitsByVersion s.solcVersion = some us →
            ∀ q ∈ s.recordedPaths, q ∈ jsKeys (us.getD 0 []))) →
      ((∀ v us, jsGet final.compilationUnitsByVersion v = some us →
          us.length = 1) ∧
       (∀ s ∈ final.survivors,
          s.solcVersion ∈ jsKeys final.compilationUnitsByVersion ∧
          ∀ us, jsGet final.compilationUnitsByVersion s.solcVersion =
              some us →
            ∀ q ∈ s.recordedPaths, q ∈ jsKeys (us.getD 0 []))) := by
  intro names
  induction names with
  | nil =>
    intro st final h hinv
    simp only [planContracts, Except.ok.injEq] at h
    rw [← h]
    exact hinv
  | cons n rest ih =>
    intro st final h hinv
    cases hs : planStep env pin false st n with
    | error e =>
      simp only [planContracts, hs] at h
      exact Except.noConfusion h
    | ok st' =>
      simp only [planContracts, hs] at h
      refine ih st' final h ?_
      rcases planStep_ok_cases env pin false st st' n hs with
        ⟨hp, hv⟩ | ⟨r, v, _, _, hplan, hsurv⟩
      · constructor
        · rw [hp]
          exact hinv.1
        · intro s hsm
          rw [hv] at hsm
          rw [hp]
          exact hinv.2 s hsm
      · simp only [Bool.false_eq_true, if_false] at hplan
        -- the single unit the recorded sources went into
        have hshape : ∃ u0,
            st'.compilationUnitsByVersion =
              jsSet st.compilationUnitsByVersion v [fillUnit u0 r.recorded] ∧
            (∀ us0, jsGet st.compilationUnitsByVersion v = some us0 →
              us0 = [u0]) := by
          cases hPv : jsGet st.compilationUnitsByVersion v with
          | none =>
            refine ⟨[], ?_, ?_⟩
            · rw [hplan, hPv]
              rfl
            · intro us0 h0
              exact Option.noConfusion h0
          | some us0 =>
            have hlen := hinv.1 v us0 hPv
            obtain ⟨u, hu⟩ := List.length_eq_one.mp hlen
            refine ⟨u, ?_, ?_⟩
            · rw [hplan, hPv, hu]
              rfl
            · intro us1 h1
              injection h1 with h1
              rw [← h1]
              exact hu
        obtain ⟨u0, hplan', hsome⟩ := hshape
        constructor
        · intro v' us hget
          by_cases hvv : v' = v
          · subst hvv
            rw [hplan', jsGet_jsSet_self] at hget
            injection hget with hget
            rw [← hget]
            rfl
          · rw [hplan', jsGet_jsSet_ne _ _ _ _ hvv] at hget
            exact hinv.1 v' us hget
        · intro s hsm
          rw [hsurv] at hsm
          rcases List.mem_append.mp hsm with hsm | hsm
          · -- an old survivor
            obtain ⟨hpres, hcont⟩ := hinv.2 s hsm
            by_cases hvv : s.solcVersion = v
            · constructor
              · rw [hplan', hvv]
                exact mem_jsKeys_of_jsGet (jsGet_jsSet_self _ _ _)
              · intro us hget q hq
                rw [hplan', hvv, jsGet_jsSet_self] at hget
                injection hget with hget
                rw [← hget]
                obtain ⟨usOld, hOld⟩ := jsGet_isSome_of_mem_jsKeys
                  (hvv ▸ hpres)
                have husOld := hsome usOld hOld
                have hq0 := hcont usOld (hvv ▸ hOld) q hq
                rw [husOld] at hq0
                simp only [List.getD] at hq0 ⊢
                exact mem_jsKeys_fillUnit_of_mem r.recorded u0 hq0
            · constructor
              · rw [hplan']
                exact jsKeys_mono_jsSet hpres
              · intro us hget q hq
                rw [hplan', jsGet_jsSet_ne _ _ _ _ hvv] at hget
                exact hcont us hget q hq
          · -- the freshly recorded survivor
            rcases List.mem_singleton.mp hsm with rfl
            constructor
            · rw [hplan']
              exact mem_jsKeys_of_jsGet (jsGet_jsSet_self _ _ _)
            · intro us hget q hq
              rw [hplan', jsGet_jsSet_self] at hget
              injection hget with hget
              rw [← hget]
              simp only [List.getD]
              simp only [List.mem_map] at hq
              obtain ⟨cs, hcs, hcsq⟩ := hq
              rw [← hcsq]
              exact mem_jsKeys_fillUnit r.recorded u0 cs hcs

/-- The independent-mode planning invariant: for every version, the number
of planned units equals the number of survivors that chose that version. -/
theorem planContracts_independent_inv (env : CompilerEnv)
    (pin : Option String) :
    ∀ (names : List String) (st final : PlanState),
      planContracts env pin true st names = .ok final →
      (∀ v, (∀ us, jsGet st.compilationUnitsByVersion v = some us →
          us.length = (st.survivors.filter
            (fun s => s.solcVersion == v)).length) ∧
        (jsGet st.compilationUnitsByVersion v = none →
          st.survivors.filter (fun s => s.solcVersion == v) = [])) →
      (∀ v, (∀ us, jsGet final.compilationUnitsByVersion v = some us →
          us.length = (final.survivors.filter
            (fun s => s.solcVersion == v)).length) ∧
        (jsGet final.compilationUnitsByVersion v = none →
          final.survivors.filter (fun s => s.solcVersion == v) = [])) := by
  intro names
  induction names with
  | nil =>
    intro st final h hinv
    simp only [planContracts, Except.ok.injEq] at h
    rw [← h]
    exact hinv
  | cons n rest ih =>
    intro st final h hinv
    cases hs : planStep env pin true st n with
    | error e =>
      simp only [planContracts, hs] at h
      exact Except.noConfusion h
    | ok st' =>
      simp only [planContracts, hs] at h
      refine ih st' final h ?_
      rcases planStep_ok_cases env pin true st st' n hs with
        ⟨hp, hv⟩ | ⟨r, v, _, _, hplan, hsurv⟩
      · intro v'
        rw [hp, hv]
        exact hinv v'
      · simp only [if_true] at hplan
        intro v'
        rw [hsurv]
        by_cases hvv : v' = v
        · subst hvv
          constructor
          · intro us hget
            rw [hplan, jsGet_jsSet_self] at hget
            injection hget with hget
            rw [← hget]
            rw [List.filter_append]
            simp only [List.filter_cons, List.filter_nil, beq_self_eq_true,
              if_true, List.length_append, List.length_append]
            cases hPv : jsGet st.compilationUnitsByVersion v' with
            | none =>
              rw [(hinv v').2 hPv]
              simp
            | some us0 =>
              simp only [Option.getD_some, List.length_append]
              rw [(hinv v').1 us0 hPv]
              simp
          · intro hget
            rw [hplan, jsGet_jsSet_self] at hget
            exact Option.noConfusion hget
        · have hb : ((SurvivorInfo.mk n v
              (r.recorded.map (fun cs => cs.absolutePath))).solcVersion
              == v') = false := by
            simpa using fun hh => hvv hh.symm
          have hfilter : (st.survivors ++
              [SurvivorInfo.mk n v
                (r.recorded.map (fun cs => cs.absolutePath))]).filter
                (fun s => s.solcVersion == v') =
              st.survivors.filter (fun s => s.solcVersion == v') := by
            rw [List.filter_append]
            simp [List.filter_cons, hb]
          constructor
          · intro us hget
            rw [hplan, jsGet_jsSet_ne _ _ _ _ hvv] at hget
            rw [← hsurv, hsurv, hfilter]
            exact (hinv v').1 us hget
          · intro hget
            rw [hplan, jsGet_jsSet_ne _ _ _ _ hvv] at hget
            rw [← hsurv, hsurv, hfilter]
            exact (hinv v').2 hget

/-- C6: after planning completes, in batched mode every version present in
the plan maps to exactly one compilation unit, that unit containing every
surviving root's recorded (transitive) files for that version; in
independent mode, each version's unit list holds one freshly allocated unit
per surviving requested contract that chose it (and versions absent from
the plan have no survivors). -/
theorem compilation_plan_shape :
    (∀ (env : CompilerEnv) (pin : Option String) (persist : Bool)
        (names : List String) (res : RunResult),
      compileContractsAsync env pin ⟨persist, false⟩ names = .ok res →
      (∀ v us, jsGet res.plan v = some us → us.length = 1) ∧
      (∀ s ∈ res.survivors, s.solcVersion ∈ jsKeys res.plan ∧
        ∀ us, jsGet res.plan s.solcVersion = some us →
          ∀ q ∈ s.recordedPaths, q ∈ jsKeys (us.getD 0 [])))
  ∧ (∀ (env : CompilerEnv) (pin : Option String) (persist : Bool)
        (names : List String) (res : RunResult),
      compileContractsAsync env pin ⟨persist, true⟩ names = .ok res →
      ∀ v, (∀ us, jsGet res.plan v = some us →
          us.length = (res.survivors.filter
            (fun s => s.solcVersion == v)).length) ∧
        (jsGet res.plan v = none →
          res.survivors.filter (fun s => s.solcVersion == v) = [])) := by
  constructor
  · intro env pin persist names res h
    cases hpl : planContracts env pin false PlanState.init names with
    | error e =>
      simp only [compileContractsAsync, hpl] at h
      exact Except.noConfusion h
    | ok st =>
      have hinv := planContracts_batched_inv env pin names PlanState.init
        st hpl ⟨by intro v us hget; simp [PlanState.init, jsGet] at hget,
          by intro s hsm; simp [PlanState.init] at hsm⟩
      cases hd : dispatchUnits env (env.remappingsOf
          st.resolvedContractSources) st.registry
          st.compilationUnitsByVersion with
      | error e =>
        simp only [compileContractsAsync, hpl, hd] at h
        exact Except.noConfusion h
      | ok d =>
        cases hwr : (if persist then
            runWriter st.contractPathToData WriterState.init
              (persistItems st.compilationUnitsByVersion d.results)
          else .ok WriterState.init) with
        | error e =>
          simp only [compileContractsAsync, hpl, hd, hwr] at h
          exact Except.noConfusion h
        | ok w =>
          simp only [compileContractsAsync, hpl, hd, hwr,
            Except.ok.injEq] at h
          rw [← h]
          exact hinv
  · intro env pin persist names res h
    cases hpl : planContracts env pin true PlanState.init names with
    | error e =>
      simp only [compileContractsAsync, hpl] at h
      exact Except.noConfusion h
    | ok st =>
      have hinv := planContracts_independent_inv env pin names
        PlanState.init st hpl (by
          intro v
          constructor
          · intro us hget
            simp [PlanState.init, jsGet] at hget
          · intro _
            simp [PlanState.init])
      cases hd : dispatchUnits env (env.remappingsOf
          st.resolvedContractSources) st.registry
          st.compilationUnitsByVersion with
      | error e =>
        simp only [compileContractsAsync, hpl, hd] at h
        exact Except.noConfusion h
      | ok d =>
        cases hwr : (if persist then
            runWriter st.contractPathToData WriterState.init
              (persistItems st.compilationUnitsByVersion d.results)
          else .ok WriterState.init) with
        | error e =>
          simp only [compileContractsAsync, hpl, hd, hwr] at h
          exact Except.noConfusion h
        | ok w =>
          simp only [compileContractsAsync, hpl, hd, hwr,
            Except.ok.injEq] at h
          rw [← h]
          exact hinv

/-- Witness for C6: the concrete S4 project planned in batched mode yields
one unit (containing `L`), and in independent mode two units — one per
surviving root. -/
theorem compilation_plan_shape_witness :
    compileContractsAsync c1Env none ⟨false, false⟩ ["A", "B"] =
      .ok c6bRes ∧
    compileContractsAsync c1Env none ⟨false, true⟩ ["A", "B"] =
      .ok c6iRes ∧
    ([c6bUnit] : List CompilationUnit).length = 1 ∧
    "/c/L.sol" ∈ jsKeys ([c6bUnit].getD 0 []) ∧
    ([c6iUnitA, c6iUnitB] : List CompilationUnit).length =
      (c6iRes.survivors.filter
        (fun s => s.solcVersion == "0.6.12+commit.X")).length :=
  ⟨by rfl, by rfl,
    (compilation_plan_shape.1 c1Env none false ["A", "B"] c6bRes
      (by rfl)).1 "0.6.12+commit.X" [c6bUnit] (by rfl),
    ((compilation_plan_shape.1 c1Env none false ["A", "B"] c6bRes
      (by rfl)).2 ⟨"A", "0.6.12+commit.X", ["/c/A.sol", "/c/L.sol"]⟩
      (by decide)).2 [c6bUnit] (by rfl) "/c/L.sol" (by decide),
    (compilation_plan_shape.2 c1Env none false ["A", "B"] c6iRes
      (by rfl) "0.6.12+commit.X").1 [c6iUnitA, c6iUnitB] (by rfl)⟩

/-- Case analysis of one successful writer iteration: either nothing
happened (no planner data, or an artifact from a unit at most as small was
already written), or the path's artifact was (re)persisted, the cache was
set to the unit size, and the trace gained exactly this persist call —
which requires that nothing smaller-or-equal was cached. -/
theorem writerStep_cases (pathToData : JsObj ContractData)
    (st st' : WriterState) (item : PersistItem)
    (h : writerStep pathToData st item = .ok st') :
    (st' = st ∧ (jsGet pathToData item.contractPath = none ∨
      ∃ c, jsGet st.artifactCache item.contractPath = some c ∧
        c ≤ item.unit.length)) ∨
    (∃ evs, st'.artifactCache =
        jsSet st.artifactCache item.contractPath item.unit.length ∧
      st'.events = st.events ++ evs ∧
      st'.trace = st.trace ++
        [⟨item.contractPath, item.unit.length, item.unit,
          item.solcVersion⟩] ∧
      (jsGet st.artifactCache item.contractPath = none ∨
        ∃ c, jsGet st.artifactCache item.contractPath = some c ∧
          item.unit.length < c)) := by
  cases hdata : jsGet pathToData item.contractPath with
  | none =>
    simp only [writerStep, hdata, Except.ok.injEq] at h
    exact Or.inl ⟨h.symm, Or.inl rfl⟩
  | some data =>
    cases hfam : (jsGet item.result.output.contracts
        item.contractPath).elim
        (jsGet item.result.output.contracts "") some with
    | none =>
      simp only [writerStep, hdata, hfam] at h
      exact Except.noConfusion h
    | some fam =>
      cases hname : jsGet fam data.contractName with
      | none =>
        simp only [writerStep, hdata, hfam, hname] at h
        exact Except.noConfusion h
      | some cc =>
        cases hcache : jsGet st.artifactCache item.contractPath with
        | some cv =>
          by_cases hle : cv ≤ item.unit.length
          · have hd : decide (cv ≤ item.unit.length) = true :=
              decide_eq_true hle
            simp only [writerStep, hdata, hfam, hname, hcache, hd,
              if_true, Except.ok.injEq] at h
            exact Or.inl ⟨h.symm, Or.inr ⟨cv, rfl, hle⟩⟩
          · have hd : decide (cv ≤ item.unit.length) = false := by
              simpa using hle
            cases hpc : persistCompiledContract data.contractName
                item.solcVersion item.result.input item.result.output with
            | error e =>
              simp only [writerStep, hdata, hfam, hname, hcache, hd,
                Bool.false_eq_true, if_false, hpc] at h
              exact Except.noConfusion h
            | ok evs =>
              simp only [writerStep, hdata, hfam, hname, hcache, hd,
                Bool.false_eq_true, if_false, hpc, Except.ok.injEq] at h
              refine Or.inr ⟨evs, ?_, ?_, ?_,
                Or.inr ⟨cv, rfl, Nat.lt_of_not_le hle⟩⟩ <;> rw [← h]
        | none =>
          cases hpc : persistCompiledContract data.contractName
              item.solcVersion item.result.input item.result.output with
          | error e =>
            simp only [writerStep, hdata, hfam, hname, hcache,
              Bool.false_eq_true, if_false, hpc] at h
            exact Except.noConfusion h
          | ok evs =>
            simp only [writerStep, hdata, hfam, hname, hcache,
              Bool.false_eq_true, if_false, hpc, Except.ok.injEq] at h
            refine Or.inr ⟨evs, ?_, ?_, ?_, Or.inl rfl⟩ <;> rw [← h]

/-- Projection of the writer loop onto one path `p` with planner data: the
persist calls traced for `p` are exactly those of the pure gate simulation
run over the occurrences of `p` in the item stream, and the final cached
size for `p` is the simulation's. -/
theorem runWriter_proj (pathToData : JsObj ContractData) (p : String)
    (data : ContractData) (hdata : jsGet pathToData p = some data) :
    ∀ (items : List PersistItem) (st final : WriterState),
      runWriter pathToData st items = .ok final →
      final.trace.filter (fun t => t.contractPath == p) =
        st.trace.filter (fun t => t.contractPath == p) ++
          (writerSim (jsGet st.artifactCache p)
            (items.filter (fun it => it.contractPath == p))).1 ∧
      jsGet final.artifactCache p =
        (writerSim (jsGet st.artifactCache p)
          (items.filter (fun it => it.contractPath == p))).2 := by
  intro items
  induction items with
  | nil =>
    intro st final h
    simp only [runWriter, Except.ok.injEq] at h
    rw [← h]
    simp [writerSim]
  | cons item rest ih =>
    intro st final h
    cases hs : writerStep pathToData st item with
    | error e =>
      simp only [runWriter, hs] at h
      exact Except.noConfusion h
    | ok st' =>
      simp only [runWriter, hs] at h
      by_cases hpp : item.contractPath = p
      · -- an occurrence of `p`
        have hfil : (item :: rest).filter
            (fun it => it.contractPath == p) =
            item :: rest.filter (fun it => it.contractPath == p) := by
          simp [List.filter_cons, hpp]
        rcases writerStep_cases pathToData st st' item hs with
          ⟨hst, hor⟩ | ⟨evs, hcache', hevents', htrace', hor⟩
        · -- skipped: something at most as small was already cached
          rcases hor with hnone | ⟨c, hc, hle⟩
          · rw [hpp] at hnone
            rw [hnone] at hdata
            exact Option.noConfusion hdata
          · rw [hpp] at hc
            have hkeep : decide (item.unit.length < c) = false := by
              simpa using Nat.not_lt_of_le hle
            obtain ⟨ht, hcch⟩ := ih st' final h
            subst hst
            rw [hfil]
            constructor
            · rw [ht, hc]
              congr 1
              simp only [writerSim, hkeep, Bool.false_eq_true, if_false]
            · rw [hcch, hc]
              congr 1
              simp only [writerSim, hkeep, Bool.false_eq_true, if_false]
        · -- persisted: trace gains this call, cache now holds this size
          have hkeep : (match jsGet st.artifactCache p with
              | some c => decide (item.unit.length < c)
              | none => true) = true := by
            rcases hor with hnone | ⟨c, hc, hlt⟩
            · rw [hpp] at hnone
              rw [hnone]
            · rw [hpp] at hc
              rw [hc]
              exact decide_eq_true hlt
          obtain ⟨ht, hcch⟩ := ih st' final h
          have hc' : jsGet st'.artifactCache p = some item.unit.length := by
            rw [hcache', ← hpp]
            exact jsGet_jsSet_self _ _ _
          have htf : st'.trace.filter (fun t => t.contractPath == p) =
              st.trace.filter (fun t => t.contractPath == p) ++
                [⟨item.contractPath, item.unit.length, item.unit,
                  item.solcVersion⟩] := by
            rw [htrace', List.filter_append]
            congr 1
            simp [List.filter_cons, hpp]
          rw [hfil]
          constructor
          · rw [ht, htf, hc']
            rw [List.append_assoc]
            congr 1
            have : writerSim (jsGet st.artifactCache p)
                (item :: rest.filter (fun it => it.contractPath == p)) =
                (⟨item.contractPath, item.unit.length, item.unit,
                    item.solcVersion⟩ ::
                  (writerSim (some item.unit.length)
                    (rest.filter (fun it => it.contractPath == p))).1,
                 (writerSim (some item.unit.length)
                   (rest.filter (fun it => it.contractPath == p))).2) := by
              simp only [writerSim, hkeep, if_true]
            rw [this]
            rfl
          · rw [hcch, hc']
            have : writerSim (jsGet st.artifactCache p)
                (item :: rest.filter (fun it => it.contractPath == p)) =
                (⟨item.contractPath, item.unit.length, item.unit,
                    item.solcVersion⟩ ::
                  (writerSim (some item.unit.length)
                    (rest.filter (fun it => it.contractPath == p))).1,
                 (writerSim (some item.unit.length)
                   (rest.filter (fun it => it.contractPath == p))).2) := by
              simp only [writerSim, hkeep, if_true]
            rw [this]
      · -- not an occurrence of `p`: nothing about `p` changes
        have hfil : (item :: rest).filter
            (fun it => it.contractPath == p) =
            rest.filter (fun it => it.contractPath == p) := by
          simp [List.filter_cons, hpp]
        have hinv : st'.trace.filter (fun t => t.contractPath == p) =
            st.trace.filter (fun t => t.contractPath == p) ∧
            jsGet st'.artifactCache p = jsGet st.artifactCache p := by
          rcases writerStep_cases pathToData st st' item hs with
            ⟨hst, _⟩ | ⟨evs, hcache', hevents', htrace', _⟩
          · rw [hst]
            exact ⟨rfl, rfl⟩
          · constructor
            · rw [htrace', List.filter_append]
              have : (List.filter (fun (t : PersistCall) =>
                  t.contractPath == p)
                  ([⟨item.contractPath, item.unit.length, item.unit,
                    item.solcVersion⟩] : List PersistCall)) = [] := by
                simp [List.filter_cons, hpp]
              rw [this, List.append_nil]
            · rw [hcache']
              exact jsGet_jsSet_ne _ _ _ _ (fun hh => hpp hh.symm)
        obtain ⟨ht, hcch⟩ := ih st' final h
        rw [hfil]
        rw [hinv.1] at ht
        rw [hinv.2] at ht hcch
        exact ⟨ht, hcch⟩

/-- The gate simulation emits persist calls of strictly decreasing unit
size, all strictly below the initial cached size (when one is cached). -/
theorem writerSim_chain :
    ∀ (occs : List PersistItem) (cache : Option Nat),
      List.Chain' (fun a b => b.unitSize < a.unitSize)
        (writerSim cache occs).1 ∧
      (∀ c, cache = some c →
        ∀ t ∈ (writerSim cache occs).1, t.unitSize < c) := by
  intro occs
  induction occs with
  | nil =>
    intro cache
    constructor
    · exact List.chain'_nil
    · intro c _ t ht
      simp [writerSim] at ht
  | cons it rest ih =>
    intro cache
    have hkeepcase : ∀ (hkeep : (match cache with
        | some c => decide (it.unit.length < c)
        | none => true) = true),
        writerSim cache (it :: rest) =
          (⟨it.contractPath, it.unit.length, it.unit, it.solcVersion⟩ ::
            (writerSim (some it.unit.length) rest).1,
           (writerSim (some it.unit.length) rest).2) := by
      intro hkeep
      simp only [writerSim, hkeep, if_true]
    cases cache with
    | none =>
      obtain ⟨hch, hbound⟩ := ih (some it.unit.length)
      rw [hkeepcase rfl]
      constructor
      · rw [List.chain'_cons']
        refine ⟨?_, hch⟩
        intro b hb
        exact hbound it.unit.length rfl b (List.mem_of_mem_head? hb)
      · intro c hc
        exact Option.noConfusion hc
    | some c0 =>
      by_cases hlt : it.unit.length < c0
      · obtain ⟨hch, hbound⟩ := ih (some it.unit.length)
        rw [hkeepcase (decide_eq_true hlt)]
        constructor
        · rw [List.chain'_cons']
          refine ⟨?_, hch⟩
          intro b hb
          exact hbound it.unit.length rfl b (List.mem_of_mem_head? hb)
        · intro c hc t ht
          injection hc with hc
          rw [← hc]
          rcases List.mem_cons.mp ht with rfl | ht
          · exact hlt
          · exact Nat.lt_trans
              (hbound it.unit.length rfl t ht) hlt
      · have hskip : writerSim (some c0) (it :: rest) =
            writerSim (some c0) rest := by
          have hd : decide (it.unit.length < c0) = false := by
            simpa using hlt
          simp only [writerSim, hd, Bool.false_eq_true, if_false]
        rw [hskip]
        exact ih (some c0)

/-- The last element of a nonempty cons, with a fallback. -/
theorem getLast?_cons_orElse {α : Type} (e : α) (l : List α)
    (x : Option α) :
    ((e :: l).getLast?).orElse (fun _ => x) =
      (l.getLast?).orElse (fun _ => some e) := by
  cases l with
  | nil => rfl
  | cons y ys =>
    rw [List.getLast?_cons_cons]
    cases h : (y :: ys).getLast? with
    | none =>
      exfalso
      rw [List.getLast?_eq_none_iff] at h
      exact List.noConfusion h
    | some z => rfl

/-- The last persist call of the gate simulation is the first occurrence of
minimal unit size (the running best), relative to a previously persisted
call whose size is cached. -/
theorem writerSim_last :
    ∀ (occs : List PersistItem) (prev : Option PersistCall),
      ((writerSim (prev.map (fun (t : PersistCall) => t.unitSize)) occs).1.getLast?).orElse
          (fun _ => prev) =
        firstSmallestCall prev occs := by
  intro occs
  induction occs with
  | nil =>
    intro prev
    simp [writerSim, firstSmallestCall]
  | cons it rest ih =>
    intro prev
    cases prev with
    | none =>
      have hstep : writerSim (Option.map (fun (t : PersistCall) => t.unitSize) none)
          (it :: rest) =
          (⟨it.contractPath, it.unit.length, it.unit, it.solcVersion⟩ ::
            (writerSim (some it.unit.length) rest).1,
           (writerSim (some it.unit.length) rest).2) := by
        simp only [Option.map_none', writerSim, if_true]
      rw [hstep]
      have := ih (some ⟨it.contractPath, it.unit.length, it.unit,
        it.solcVersion⟩)
      simp only [Option.map_some'] at this
      rw [getLast?_cons_orElse]
      exact this
    | some b0 =>
      by_cases hle : b0.unitSize ≤ it.unit.length
      · have hskip : writerSim (Option.map (fun (t : PersistCall) => t.unitSize)
            (some b0)) (it :: rest) =
            writerSim (some b0.unitSize) rest := by
          have hd : decide (it.unit.length < b0.unitSize) = false := by
            simpa using Nat.not_lt_of_le hle
          simp only [Option.map_some', writerSim, hd, Bool.false_eq_true,
            if_false]
        rw [hskip]
        have := ih (some b0)
        simp only [Option.map_some'] at this
        rw [show firstSmallestCall (some b0) (it :: rest) =
          firstSmallestCall (some b0) rest by
            simp only [firstSmallestCall, if_pos hle]]
        exact this
      · have hstep : writerSim (Option.map (fun (t : PersistCall) => t.unitSize)
            (some b0)) (it :: rest) =
            (⟨it.contractPath, it.unit.length, it.unit, it.solcVersion⟩ ::
              (writerSim (some it.unit.length) rest).1,
             (writerSim (some it.unit.length) rest).2) := by
          have hd : decide (it.unit.length < b0.unitSize) = true :=
            decide_eq_true (Nat.lt_of_not_le hle)
          simp only [Option.map_some', writerSim, hd, if_true]
        rw [hstep]
        have := ih (some ⟨it.contractPath, it.unit.length, it.unit,
          it.solcVersion⟩)
        simp only [Option.map_some'] at this
        rw [getLast?_cons_orElse]
        rw [show firstSmallestCall (some b0) (it :: rest) =
          firstSmallestCall (some ⟨it.contractPath, it.unit.length,
            it.unit, it.solcVersion⟩) rest by
            simp only [firstSmallestCall, if_neg hle]]
        exact this

/-- C2: for every contract path `p` with planner data in a successful
persisting run, the writer's successive persist calls for `p` (which
overwrite the previously written artifact for that path) have strictly
decreasing unit sizes — an overwrite happens only when the new unit is
strictly smaller than the recorded size — and the final persist call for
`p` (hence the finally persisted artifact) is the one from the first unit
of minimal size among the units containing `p`, in writer iteration order;
on a tie the earlier write is kept. -/
theorem writer_smallest_unit_wins (pathToData : JsObj ContractData)
    (p : String) (data : ContractData) (items : List PersistItem)
    (final : WriterState) (hdata : jsGet pathToData p = some data)
    (hrun : runWriter pathToData WriterState.init items = .ok final) :
    List.Chain' (fun a b => b.unitSize < a.unitSize)
      (final.trace.filter (fun t => t.contractPath == p)) ∧
    (final.trace.filter (fun t => t.contractPath == p)).getLast? =
      firstSmallestCall none
        (items.filter (fun it => it.contractPath == p)) := by
  obtain ⟨ht, _⟩ := runWriter_proj pathToData p data hdata items
    WriterState.init final hrun
  have hinit : jsGet (WriterState.init).artifactCache p = none := rfl
  rw [hinit] at ht
  have htt : final.trace.filter (fun t => t.contractPath == p) =
      (writerSim none
        (items.filter (fun it => it.contractPath == p))).1 := by
    rw [ht]
    rfl
  constructor
  · rw [htt]
    exact (writerSim_chain
      (items.filter (fun it => it.contractPath == p)) none).1
  · rw [htt]
    have := writerSim_last
      (items.filter (fun it => it.contractPath == p)) none
    simp only [Option.map_none'] at this
    rw [← this]
    cases (writerSim none
        (items.filter (fun it => it.contractPath == p))).1.getLast? <;> rfl

/-- Witness for C2: the concrete run persists `B` twice with strictly
decreasing unit sizes and keeps the artifact from the first minimal unit. -/
theorem writer_smallest_unit_wins_witness :
    runWriter c2PathToData WriterState.init c2Items = .ok c2Final ∧
    (List.Chain' (fun a b => b.unitSize < a.unitSize)
      (c2Final.trace.filter (fun t => t.contractPath == "/c/B.sol")) ∧
     (c2Final.trace.filter
        (fun t => t.contractPath == "/c/B.sol")).getLast? =
       firstSmallestCall none
         (c2Items.filter (fun it => it.contractPath == "/c/B.sol"))) :=
  ⟨by rfl, writer_smallest_unit_wins c2PathToData "/c/B.sol"
    ⟨none, "0x", "B"⟩ c2Items c2Final (by rfl) (by rfl)⟩

end SolCompiler

